import Mathlib

/-!
Verification of the 2048 decision core (`game.py`) against its
natural-language specification.  The board is a Python list of lists of
integers; the integer `1` is the empty-cell sentinel.  All definitions in
the `Game2048` namespace are shallow embeddings of the corresponding
Python functions; definitions in the `Spec2048` namespace are written
from the specification's words and are compared with the code embeddings
by refinement theorems.
-/

namespace Game2048

abbrev Board := List (List Int)

/-- `game.py` lines 9-14, `get_max_cell`: running maximum over all cells,
starting from 1. -/
def get_max_cell (board : Board) : Int :=
  board.foldl (fun m row => row.foldl (fun m c => max m c) m) 1

/-- `game.py` lines 41-44: per-row compaction for `left` — drop sentinels,
pad the right with sentinels. -/
def compressLeft (row : List Int) : List Int :=
  let nr := row.filter (fun x => x ≠ 1)
  nr ++ List.replicate (row.length - nr.length) 1

/-- `game.py` lines 20-23: per-row compaction for `right` — drop sentinels,
pad the left with sentinels. -/
def compressRight (row : List Int) : List Int :=
  let nr := row.filter (fun x => x ≠ 1)
  List.replicate (row.length - nr.length) 1 ++ nr

/-- One iteration `i` of the merge loop of `left` (`game.py` lines 47-53):
if cells `i` and `i+1` are equal and occupied, double cell `i`, drop cell
`i+1` and append a sentinel (at `i = len-2`, just overwrite the last cell
with the sentinel). -/
def leftStep (r : List Int) (i : Nat) : List Int :=
  if r.getD i 0 = r.getD (i+1) 0 ∧ r.getD i 0 ≠ 1 then
    let r2 := r.set i (2 * r.getD i 0)
    if i = r2.length - 2 then r2.set (r2.length - 1) 1
    else r2.take (i+1) ++ r2.drop (i+2) ++ [1]
  else r

/-- `game.py` lines 37-54, `left`: compact every row, then run the merge
loop for `i = 0 .. cols-2` on each row, where `cols = len(board[0])`. -/
def left (board : Board) : Board :=
  let cols := (board.headD []).length
  board.map (fun row => (List.range (cols - 1)).foldl leftStep (compressLeft row))

/-- One iteration `i` of the merge loop of `right` (`game.py` lines 26-33):
if cells `i` and `i-1` are equal and occupied, double cell `i`, drop cell
`i-1` and prepend a sentinel (at `i = 1`, just overwrite cell 0 with the
sentinel). -/
def rightStep (r : List Int) (i : Nat) : List Int :=
  if r.getD i 0 = r.getD (i-1) 0 ∧ r.getD i 0 ≠ 1 then
    let r2 := r.set i (2 * r.getD i 0)
    if i = 1 then r2.set 0 1
    else [1] ++ r2.take (i-1) ++ r2.drop i
  else r

/-- The descending index sequence `cols-1, cols-2, ..., 1` of the `right`
merge loop (`range(cols-1, 0, -1)` in Python). -/
def descIdx (cols : Nat) : List Nat :=
  ((List.range (cols - 1)).map (fun i => i + 1)).reverse

/-- `game.py` lines 16-34, `right`: compact every row, then run the merge
loop for `i = cols-1 .. 1` on each row. -/
def right (board : Board) : Board :=
  let cols := (board.headD []).length
  board.map (fun row => (descIdx cols).foldl rightStep (compressRight row))

/-- The bottom-compaction two-pointer loop of `down` (`game.py` lines
86-93 and 102-108): scan `rowc` from the bottom, copy occupied cells to
the write pointer.  The state's second component is `rowd + 1` (so that it
stays a natural number when `rowd` reaches `-1`). -/
def downShift (src : List Int) (st : List Int × Nat) (rowc : Nat) : List Int × Nat :=
  if src.getD rowc 0 ≠ 1 then (st.1.set (st.2 - 1) (src.getD rowc 0), st.2 - 1) else st

/-- First compaction of `down` (`game.py` lines 86-93): read the column,
write occupied cells bottom-up into a fresh all-sentinel column. -/
def downPhaseA (col : List Int) : List Int :=
  ((List.range col.length).reverse.foldl (downShift col) (List.replicate col.length 1, col.length)).1

/-- One iteration of the merge pass of `down` (`game.py` lines 96-99). -/
def downMergeStep (d : List Int) (row : Nat) : List Int :=
  if d.getD row 0 = d.getD (row - 1) 0 ∧ d.getD row 0 ≠ 1 then
    (d.set row (2 * d.getD row 0)).set (row - 1) 1
  else d

/-- The merge pass of `down`, `row = n-1 .. 1`. -/
def downPhaseB (d : List Int) (n : Nat) : List Int :=
  (((List.range (n - 1)).map (fun i => i + 1)).reverse).foldl downMergeStep d

/-- The sentinel fill of `down` (`game.py` lines 111-113): the Python
loop `while rowd >= 0: down_board[rowd][col] = 1; rowd -= 1`, with
`k = rowd + 1`. -/
def fillOnes (d : List Int) : Nat → List Int
  | 0 => d
  | k+1 => fillOnes (d.set k 1) k

/-- Second compaction of `down` (`game.py` lines 102-108), performed in
place, followed by the sentinel fill of the cells above the write pointer
(lines 111-113). -/
def downPhaseCD (d : List Int) (n : Nat) : List Int :=
  let st := (List.range n).reverse.foldl (fun st rowc => downShift st.1 st rowc) (d, n)
  fillOnes st.1 st.2

/-- `game.py` lines 61-115, `down`, restricted to a single column (the
Python loops treat each column independently): compact toward the bottom
into a fresh all-sentinel column, make one bottom-up merge pass, compact
again in place, and fill the cells above the write pointer with
sentinels. -/
def downCol (col : List Int) : List Int :=
  downPhaseCD (downPhaseB (downPhaseA col) col.length) col.length

/-- `game.py` lines 61-115, `down`: apply `downCol` to every column and
reassemble the board row by row. -/
def down (board : Board) : Board :=
  let n := board.length
  let cols := (board.headD []).length
  let newCols := (List.range cols).map (fun j => downCol (board.map (fun row => row.getD j 0)))
  (List.range n).map (fun i => newCols.map (fun c => c.getD i 0))

/-- `game.py` lines 118-123: the traversal order used by the scorer —
reverse rows 0 and 2 in place, flatten, and reverse the whole list. -/
def boardList (board : Board) : List Int :=
  let bc := board.set 0 ((board.getD 0 []).reverse)
  let bc2 := bc.set 2 ((bc.getD 2 []).reverse)
  bc2.flatten.reverse

/-- `game.py` lines 125-131: accumulate traversal cells while each next
value is `≤` the previous one (`last`), stopping at the first increase. -/
def monoRun : List Int → Int → List Int
  | [], _ => []
  | x :: xs, last => if x ≤ last then x :: monoRun xs x else []

/-- `game.py` lines 117-132, `find_longest_path`: the longest
non-increasing initial run of the traversal (`last` starts at the first
traversal element, so that element is always taken). -/
def find_longest_path (board : Board) : List Int :=
  let bl := boardList board
  monoRun bl (bl.headD 0)

/-- Base-2 logarithm with explicit fuel (so that it evaluates by kernel
reduction); `log2Aux n n = Nat.log2 n`, proved in `log2Aux_eq`. -/
def log2Aux : Nat → Nat → Nat
  | 0, _ => 0
  | fuel+1, n => if 2 ≤ n then log2Aux fuel (n / 2) + 1 else 0

theorem log2Aux_eq : ∀ fuel n : Nat, n ≤ fuel → log2Aux fuel n = Nat.log2 n := by
  intro fuel
  induction fuel with
  | zero =>
    intro n h
    interval_cases n
    simp [log2Aux, Nat.log2]
  | succ m ih =>
    intro n h
    rw [Nat.log2]
    show (if 2 ≤ n then log2Aux m (n / 2) + 1 else 0) = _
    by_cases h2 : 2 ≤ n
    · rw [if_pos h2, if_pos h2, ih (n / 2) (by omega)]
    · rw [if_neg h2, if_neg h2]

/-- `math.log2` restricted to the integral domain where the decision core
uses it: on powers of two it agrees with the exact base-2 logarithm.  (For
`c ≤ 0` Python raises; that branch is modelled by `log2E` below.) -/
def log2Int (c : Int) : Nat := log2Aux c.toNat c.toNat

theorem log2Int_eq (c : Int) : log2Int c = Nat.log2 c.toNat :=
  log2Aux_eq c.toNat c.toNat le_rfl

/-- One accumulation step `acc += pow(base, log2(c))` of `score`
(`game.py` lines 139-143). -/
def addPow (base acc c : Int) : Int := acc + base ^ log2Int c

/-- `game.py` lines 135-144, `score`: sum `4^log2` over the monotonic
prefix, then `3^log2` over all cells. -/
def score (board : Board) : Int :=
  let s1 := (find_longest_path board).foldl (addPow 4) 0
  board.foldl (fun acc row => row.foldl (addPow 3) acc) s1

/-- Stable descending insertion: `x` is placed after every earlier element
whose key is strictly greater, and before the first element whose key is
`≤ key x`. -/
def insertDesc {α : Type} (key : α → Int) (x : α) : List α → List α
  | [] => [x]
  | y :: ys => if key x < key y then y :: insertDesc key x ys else x :: y :: ys

/-- Stable descending sort by an integer key: the embedding of Python's
stable `list.sort(key=..., reverse=True)` (any two stable descending
sorts agree, so insertion sort is a faithful model of Timsort here). -/
def sortDesc {α : Type} (key : α → Int) : List α → List α
  | [] => []
  | x :: xs => insertDesc key x (sortDesc key xs)

/-- `board[r][c]` with Python-faithful behaviour only on in-range indices
(out-of-range access is modelled separately by the `Except` versions). -/
def cellAt (b : Board) (r c : Nat) : Int := (b.getD r []).getD c 0

/-- The inner scan of `check_pivots` (`game.py` lines 159-165 and
167-173): walk the given cell indices, skip sentinels, and decide on the
first occupied cell — the move `mv` if it holds the expected value
`target`, otherwise `"undo"`; `none` if the row is all sentinels (the
Python loop then falls through). -/
def scanT (row : List Int) (idxs : List Nat) (target : Int) (mv : String) : Option String :=
  match idxs with
  | [] => none
  | i :: is =>
    if row.getD i 0 = 1 then scanT row is target mv
    else if row.getD i 0 = target then some mv
    else some "undo"

/-- One iteration of the outer loop of `check_pivots` (`game.py` lines
154-173) at a given `row` (the globals are `rows = cols = 4`).  Result
`some r` models an early `return r` from the Python loop body, `none`
models falling through to the next row. -/
def rankCheck (board : Board) (bl : List Int) (row : Nat) : Option (Option String) :=
  let k := 3 - row
  let idx := k * 4
  let v := bl.getD idx 0
  if v ≤ 64 then some none
  else
    let ev : Option String :=
      if k % 2 = 0 ∧ v ≠ cellAt board row 3 ∧ (idx = 0 ∨ cellAt board (row+1) 3 = bl.getD (idx-1) 0) then
        scanT (board.getD row []) [3, 2, 1, 0] v "right"
      else none
    match ev with
    | some r => some (some r)
    | none =>
      let od : Option String :=
        if k % 2 = 1 ∧ v ≠ cellAt board row 0 ∧ cellAt board (row+1) 0 = bl.getD (idx-1) 0 then
          scanT (board.getD row []) [0, 1, 2, 3] v "left"
        else none
      match od with
      | some r => some (some r)
      | none => none

/-- `game.py` lines 147-174, `check_pivots`: sort all cells descending,
then scan ranks from the bottom row upward; the first early return wins,
otherwise `none`. -/
def check_pivots (board : Board) : Option String :=
  let bl := sortDesc (fun x => x) board.flatten
  match rankCheck board bl 3 with
  | some r => r
  | none =>
    match rankCheck board bl 2 with
    | some r => r
    | none =>
      match rankCheck board bl 1 with
      | some r => r
      | none =>
        match rankCheck board bl 0 with
        | some r => r
        | none => none

/-- One level of the breadth-first expansion of `next_move` (`game.py`
lines 192-209): every `(board, label)` pair produces its `down`, `left`,
`right` children in that order; a child inherits a non-empty label,
otherwise it is labelled with its own move.  (The empty string stands for
Python's `None` label: both are falsy in the `if move:` tests.) -/
def expandOnce (cur : List (Board × String)) : List (Board × String) :=
  cur.foldl (fun acc bm =>
    if bm.2 ≠ "" then
      acc ++ [(down bm.1, bm.2), (left bm.1, bm.2), (right bm.1, bm.2)]
    else
      acc ++ [(down bm.1, "down"), (left bm.1, "left"), (right bm.1, "right")]) []

/-- The depth-3 leaf list of `next_move` (`lookahead = 3`). -/
def leaves (board : Board) : List (Board × String) :=
  expandOnce (expandOnce (expandOnce [(board, "")]))

/-- `game.py` lines 211-222: score every leaf, keeping its first-ply
label. -/
def scoredList (board : Board) : List (Int × String) :=
  (leaves board).map (fun x => (score x.1, x.2))

/-- `game.py` lines 177-227, `next_move`: pivot override first, otherwise
sort the scored leaves descending (stable) and return the label of the
head; `"undo"` if there are no leaves. -/
def next_move (board : Board) : String :=
  match check_pivots board with
  | some m => m
  | none =>
    match sortDesc (fun p => p.1) (scoredList board) with
    | [] => "undo"
    | p :: _ => p.2

/-- One rotation of the no-op resolution loop of `next_board` (`game.py`
lines 269-278): `down → left → right → down → …`, recomputing the
upcoming board each time. -/
def loopStep (b : Board) (m : String) : String × Board :=
  if m = "down" then ("left", left b)
  else if m = "left" then ("right", right b)
  else ("down", down b)

/-- The `while board == upcoming_board` loop of `next_board`, with an
explicit fuel parameter: `none` means the loop has not exited within
`fuel` iterations (the Python loop has no other exit). -/
def noopLoop (b : Board) : Nat → String × Board → Option (String × Board)
  | 0, _ => none
  | n+1, st => if b = st.2 then noopLoop b n (loopStep b st.1) else some st

/-- `game.py` lines 254-284, `next_board`, with fuel for the no-op
resolution loop.  `some (b2, m)` means the call returns board `b2` after
pressing move `m`; `none` means the `while` loop ran for `fuel`
iterations without exiting. -/
def next_board_fuel (board : Board) (fuel : Nat) : Option (Board × String) :=
  let move := next_move board
  if move = "undo" then some (List.replicate 4 (List.replicate 4 1), "undo")
  else
    let ub :=
      if move = "down" then down board
      else if move = "left" then left board
      else if move = "right" then right board
      else []
    match noopLoop board fuel (move, ub) with
    | some st => some (st.2, st.1)
    | none => none

/-! ### Python error behaviour

The functions above are total and agree with the Python code on the
boards on which the Python code returns normally.  The `...E` versions
below model the Python error behaviour exactly: every list access that
can raise `IndexError`, the `ValueError` validation of `down`, and the
`math.log2` domain error. -/

instance {ε α : Type} [DecidableEq ε] [DecidableEq α] : DecidableEq (Except ε α) := fun x y =>
  match x, y with
  | .ok a, .ok b =>
    if h : a = b then isTrue (by rw [h]) else isFalse (by intro hh; cases hh; exact h rfl)
  | .error a, .error b =>
    if h : a = b then isTrue (by rw [h]) else isFalse (by intro hh; cases hh; exact h rfl)
  | .ok _, .error _ => isFalse (by intro hh; cases hh)
  | .error _, .ok _ => isFalse (by intro hh; cases hh)

/-- Checked list indexing: `l[i]` raises `IndexError` when out of range
(negative literals never occur at the modelled call sites). -/
def getE {α : Type} (l : List α) (i : Nat) : Except String α :=
  if h : i < l.length then .ok l[i] else .error "IndexError: list index out of range"

/-- Checked `board[r][c]`. -/
def getE2 (b : Board) (r c : Nat) : Except String Int := do
  let row ← getE b r
  getE row c

/-- The merge loop of `left` on one row with checked accesses: Python
reads `row[i]` and `row[i+1]` for `i = 0 .. cols-2` even when the row is
shorter than `cols = len(board[0])`. -/
def leftRowE (cols : Nat) (row : List Int) : Except String (List Int) :=
  (List.range (cols - 1)).foldlM (fun r i => do
    let a ← getE r i
    let b ← getE r (i+1)
    if a = b ∧ a ≠ 1 then
      let r2 := r.set i (2 * a)
      if i = r2.length - 2 then pure (r2.set (r2.length - 1) 1)
      else pure (r2.take (i+1) ++ r2.drop (i+2) ++ [1])
    else pure r) (compressLeft row)

/-- `left` with Python's error behaviour: `len(board[0])` raises on an
empty board, and the merge loop raises mid-way on rows shorter than
`cols`; there is no validation. -/
def leftE (board : Board) : Except String Board := do
  let r0 ← getE board 0
  board.mapM (leftRowE r0.length)

/-- `down` with Python's error behaviour: lines 72-81 of `game.py`
validate the board (`ValueError`) before any transform work; on a
validated board `down` never indexes out of range. -/
def downE (board : Board) : Except String Board :=
  if board = [] ∨ board.headD [] = [] then
    .error "ValueError: Board must be a non-empty 2D list."
  else if board.any (fun row => row.length ≠ (board.headD []).length) then
    .error "ValueError: All rows must have the same number of columns."
  else .ok (down board)

/-- `math.log2` with its domain error on non-positive arguments. -/
def log2E (c : Int) : Except String Nat :=
  if c ≤ 0 then .error "ValueError: math domain error" else .ok (log2Int c)

/-- Checked accumulation step of `score`. -/
def addPowE (base acc c : Int) : Except String Int := do
  let k ← log2E c
  pure (acc + base ^ k)

/-- `find_longest_path` with Python's error behaviour: it indexes
`board[0]`, `board[2]` and `board_list[0]` without validation. -/
def find_longest_pathE (board : Board) : Except String (List Int) := do
  let r0 ← getE board 0
  let bc := board.set 0 r0.reverse
  let r2 ← getE bc 2
  let bc2 := bc.set 2 r2.reverse
  let bl := bc2.flatten.reverse
  let h ← getE bl 0
  pure (monoRun bl h)

/-- `score` with Python's error behaviour (the `math.log2` domain error
and the index errors of `find_longest_path`). -/
def scoreE (board : Board) : Except String Int := do
  let seq ← find_longest_pathE board
  let s1 ← seq.foldlM (addPowE 4) 0
  board.foldlM (fun acc row => row.foldlM (addPowE 3) acc) s1

/-- The inner scan of `check_pivots` with checked accesses. -/
def scanE (row : List Int) (idxs : List Nat) (target : Int) (mv : String) :
    Except String (Option String) :=
  match idxs with
  | [] => pure none
  | i :: is => do
    let x ← getE row i
    if x = 1 then scanE row is target mv
    else if x = target then pure (some mv)
    else pure (some "undo")

/-- One outer-loop iteration of `check_pivots` with checked accesses and
Python's left-to-right short-circuit evaluation order. -/
def rankCheckE (board : Board) (bl : List Int) (row : Nat) :
    Except String (Option (Option String)) := do
  let k := 3 - row
  let idx := k * 4
  let v ← getE bl idx
  if v ≤ 64 then pure (some none)
  else do
    let ev ← (do
      if k % 2 = 0 then do
        let edge ← getE2 board row 3
        if v ≠ edge then do
          let seated ← (if idx = 0 then pure true else do
            let below ← getE2 board (row+1) 3
            let prev ← getE bl (idx-1)
            pure (below = prev))
          if seated then do
            let rw ← getE board row
            scanE rw [3, 2, 1, 0] v "right"
          else pure none
        else pure none
      else (pure none : Except String (Option String)))
    match ev with
    | some r => pure (some (some r))
    | none => do
      let od ← (do
        if k % 2 = 1 then do
          let edge ← getE2 board row 0
          if v ≠ edge then do
            let below ← getE2 board (row+1) 0
            let prev ← getE bl (idx-1)
            if below = prev then do
              let rw ← getE board row
              scanE rw [0, 1, 2, 3] v "left"
            else pure none
          else pure none
        else (pure none : Except String (Option String)))
      match od with
      | some r => pure (some (some r))
      | none => pure none

/-- `check_pivots` with checked accesses. -/
def check_pivotsE (board : Board) : Except String (Option String) := do
  let bl := sortDesc (fun x => x) board.flatten
  match ← rankCheckE board bl 3 with
  | some r => pure r
  | none =>
    match ← rankCheckE board bl 2 with
    | some r => pure r
    | none =>
      match ← rankCheckE board bl 1 with
      | some r => pure r
      | none =>
        match ← rankCheckE board bl 0 with
        | some r => pure r
        | none => pure none

end Game2048

namespace Spec2048

/-! ### Definitions written from the specification's words (§4.1, §4.2),
used as the comparison side of the refinement theorems. -/

open Game2048 (Board log2Int)

/-- §4.1 step 2: scanning from the target edge inward over the compacted
(sentinel-free) sequence, merge adjacent equal occupied pairs once; a
merged cell never participates in a further merge — each pair is consumed
whole and the scan continues strictly behind it. -/
def mergePairs : List Int → List Int
  | a :: b :: rest =>
    if a = b ∧ a ≠ 1 then (2 * a) :: mergePairs rest
    else a :: mergePairs (b :: rest)
  | l => l

/-- §4.1 steps 1 and 3: pad with sentinels up to the row length. -/
def padTo (n : Nat) (l : List Int) : List Int := l ++ List.replicate (n - l.length) 1

/-- §4.1 for `left` on one row: compact toward the left edge, merge
scanning from the left edge inward, re-compact. -/
def rowLeft (n : Nat) (row : List Int) : List Int :=
  padTo n (mergePairs (row.filter (fun x => x ≠ 1)))

/-- §4.1 for `right` on one row (also a `down` column, reading top to
bottom): compact toward the far edge, merge scanning from the far edge
inward, re-compact. -/
def rowRight (n : Nat) (row : List Int) : List Int :=
  (padTo n (mergePairs ((row.filter (fun x => x ≠ 1)).reverse))).reverse

/-- §4.1 `left` on a 4×4 board. -/
def leftB (b : Board) : Board := b.map (rowLeft 4)

/-- §4.1 `right` on a 4×4 board. -/
def rightB (b : Board) : Board := b.map (rowRight 4)

/-- §4.1 `down` on a 4×4 board: every column is treated like a row moved
toward its far (bottom) end. -/
def downB (b : Board) : Board :=
  (List.range 4).map (fun i =>
    (List.range 4).map (fun j =>
      (rowRight 4 (b.map (fun row => row.getD j 0))).getD i 0))

/-- §4.2 step 1: the boustrophedon traversal anchored at the build corner
(bottom-right): bottom row right-to-left, then row 2 left-to-right, row 1
right-to-left, top row left-to-right. -/
def traversal (b : Board) : List Int :=
  (b.getD 3 []).reverse ++ b.getD 2 [] ++ (b.getD 1 []).reverse ++ b.getD 0 []

/-- §4.2 step 2: the longest non-increasing initial run of a traversal. -/
def nonIncRun : List Int → List Int
  | [] => []
  | [x] => [x]
  | x :: y :: rest => x :: (if y ≤ x then nonIncRun (y :: rest) else [])

/-- §4.2: the monotonic snake prefix. -/
def snake (b : Board) : List Int := nonIncRun (traversal b)

/-- §4.2 step 3: `Σ 4^log2(value)` over the prefix plus `Σ 3^log2(value)`
over all cells. -/
def specScore (b : Board) : Int :=
  ((snake b).map (fun v => (4 : Int) ^ log2Int v)).sum +
  (b.flatten.map (fun v => (3 : Int) ^ log2Int v)).sum

end Spec2048

namespace Game2048

/-! ### Well-formedness and value predicates -/

/-- A well-formed 4×4 board. -/
def WF4 (b : Board) : Prop := b.length = 4 ∧ ∀ r ∈ b, r.length = 4

instance : DecidablePred WF4 := fun b => by unfold WF4; infer_instance

/-- §3 data-model invariant for one cell: the sentinel (`2^0`) or a power
of two `≥ 2`. -/
def ValidCell (c : Int) : Prop := ∃ k : Nat, c = 2 ^ k

/-- Computable test for `ValidCell`. -/
def ValidCellB (c : Int) : Bool := 0 < c ∧ c.toNat = 2 ^ log2Int c

/-- Every cell of the board satisfies the §3 invariant. -/
def AllValid (b : Board) : Prop := ∀ r ∈ b, ∀ c ∈ r, ValidCell c

/-- Computable test for `AllValid`. -/
def AllValidB (b : Board) : Bool := b.all (fun r => r.all ValidCellB)

theorem validCell_of_b {c : Int} (h : ValidCellB c = true) : ValidCell c := by
  unfold ValidCellB at h
  simp only [Bool.and_eq_true, decide_eq_true_eq] at h
  refine ⟨log2Int c, ?_⟩
  have h2 : ((c.toNat : Int)) = ((2 ^ log2Int c : Nat) : Int) := by
    exact congrArg (fun n : Nat => (n : Int)) h.2
  rw [Int.toNat_of_nonneg (le_of_lt h.1)] at h2
  simpa using h2

theorem allValid_of_b {b : Board} (h : AllValidB b = true) : AllValid b := by
  unfold AllValidB at h
  simp only [List.all_eq_true] at h
  intro r hr c hc
  exact validCell_of_b (h r hr c hc)

/-! ### Row-level equivalence of the merge loops with the §4.1 description -/

theorem leftStep0_pos (a b c d : Int) (h : a = b) (h1 : a ≠ 1) :
    leftStep [a,b,c,d] 0 = [2*a, c, d, 1] := by
  have h2 : b ≠ 1 := h ▸ h1
  simp [leftStep, h, h1, h2]

theorem leftStep0_neg (a b c d : Int) (h : ¬(a = b ∧ a ≠ 1)) :
    leftStep [a,b,c,d] 0 = [a,b,c,d] := by
  simp only [leftStep]
  rw [if_neg]
  simpa using h

theorem leftStep1_pos (a b c d : Int) (h : b = c) (h1 : b ≠ 1) :
    leftStep [a,b,c,d] 1 = [a, 2*b, d, 1] := by
  have h2 : c ≠ 1 := h ▸ h1
  simp [leftStep, h, h1, h2]

theorem leftStep1_neg (a b c d : Int) (h : ¬(b = c ∧ b ≠ 1)) :
    leftStep [a,b,c,d] 1 = [a,b,c,d] := by
  simp only [leftStep]
  rw [if_neg]
  simpa using h

theorem leftStep2_pos (a b c d : Int) (h : c = d) (h1 : c ≠ 1) :
    leftStep [a,b,c,d] 2 = [a, b, 2*c, 1] := by
  have h2 : d ≠ 1 := h ▸ h1
  simp [leftStep, h, h1, h2]

theorem leftStep2_neg (a b c d : Int) (h : ¬(c = d ∧ c ≠ 1)) :
    leftStep [a,b,c,d] 2 = [a,b,c,d] := by
  simp only [leftStep]
  rw [if_neg]
  simpa using h

theorem foldl_leftRange3 (l : List Int) :
    (List.range 3).foldl leftStep l = leftStep (leftStep (leftStep l 0) 1) 2 := rfl

theorem leftRun4 (a b c d : Int) (ha : a ≠ 1) (hb : b ≠ 1) (hc : c ≠ 1) (hd : d ≠ 1) :
    (List.range 3).foldl leftStep [a,b,c,d] =
    Spec2048.padTo 4 (Spec2048.mergePairs [a,b,c,d]) := by
  rw [foldl_leftRange3]
  by_cases h1 : a = b
  · rw [leftStep0_pos a b c d h1 ha]
    by_cases h2 : c = d
    · rw [leftStep1_pos (2*a) c d 1 h2 hc, leftStep2_neg (2*a) (2*c) 1 1 (by simp)]
      simp [Spec2048.mergePairs, Spec2048.padTo, h1, h2, ha, hb, hc, hd]
    · rw [leftStep1_neg (2*a) c d 1 (by tauto), leftStep2_neg (2*a) c d 1 (by simp [hd])]
      simp [Spec2048.mergePairs, Spec2048.padTo, h1, h2, ha, hb, hc, hd]
  · rw [leftStep0_neg a b c d (by tauto)]
    by_cases h2 : b = c
    · rw [leftStep1_pos a b c d h2 hb, leftStep2_neg a (2*b) d 1 (by simp [hd])]
      have h1c : ¬ a = c := h2 ▸ h1
      simp [Spec2048.mergePairs, Spec2048.padTo, h1, h2, h1c, ha, hb, hc, hd]
    · rw [leftStep1_neg a b c d (by tauto)]
      by_cases h3 : c = d
      · rw [leftStep2_pos a b c d h3 hc]
        have h2d : ¬ b = d := h3 ▸ h2
        simp [Spec2048.mergePairs, Spec2048.padTo, h1, h2, h3, h2d, ha, hb, hc, hd]
      · rw [leftStep2_neg a b c d (by tauto)]
        simp [Spec2048.mergePairs, Spec2048.padTo, h1, h2, h3, ha, hb, hc, hd]

theorem leftRun3 (a b c : Int) (ha : a ≠ 1) (hb : b ≠ 1) (hc : c ≠ 1) :
    (List.range 3).foldl leftStep [a,b,c,1] =
    Spec2048.padTo 4 (Spec2048.mergePairs [a,b,c]) := by
  rw [foldl_leftRange3]
  by_cases h1 : a = b
  · rw [leftStep0_pos a b c 1 h1 ha,
      leftStep1_neg (2*a) c 1 1 (by tauto),
      leftStep2_neg (2*a) c 1 1 (by simp)]
    simp [Spec2048.mergePairs, Spec2048.padTo, h1, ha, hb, hc]
  · rw [leftStep0_neg a b c 1 (by tauto)]
    by_cases h2 : b = c
    · rw [leftStep1_pos a b c 1 h2 hb, leftStep2_neg a (2*b) 1 1 (by simp)]
      have h1c : ¬ a = c := h2 ▸ h1
      simp [Spec2048.mergePairs, Spec2048.padTo, h1, h2, h1c, ha, hb, hc]
    · rw [leftStep1_neg a b c 1 (by tauto), leftStep2_neg a b c 1 (by tauto)]
      simp [Spec2048.mergePairs, Spec2048.padTo, h1, h2, ha, hb, hc]

theorem leftRun2 (a b : Int) (ha : a ≠ 1) (hb : b ≠ 1) :
    (List.range 3).foldl leftStep [a,b,1,1] =
    Spec2048.padTo 4 (Spec2048.mergePairs [a,b]) := by
  rw [foldl_leftRange3]
  by_cases h1 : a = b
  · rw [leftStep0_pos a b 1 1 h1 ha,
      leftStep1_neg (2*a) 1 1 1 (by simp),
      leftStep2_neg (2*a) 1 1 1 (by simp)]
    simp [Spec2048.mergePairs, Spec2048.padTo, h1, ha, hb]
  · rw [leftStep0_neg a b 1 1 (by tauto),
      leftStep1_neg a b 1 1 (by tauto),
      leftStep2_neg a b 1 1 (by simp)]
    simp [Spec2048.mergePairs, Spec2048.padTo, h1, ha, hb]

theorem leftRun1 (a : Int) (ha : a ≠ 1) :
    (List.range 3).foldl leftStep [a,1,1,1] =
    Spec2048.padTo 4 (Spec2048.mergePairs [a]) := by
  rw [foldl_leftRange3,
    leftStep0_neg a 1 1 1 (by tauto),
    leftStep1_neg a 1 1 1 (by simp),
    leftStep2_neg a 1 1 1 (by simp)]
  simp [Spec2048.mergePairs, Spec2048.padTo]

theorem left_spec_row (row : List Int) (h : row.length = 4) :
    (List.range 3).foldl leftStep (compressLeft row) = Spec2048.rowLeft 4 row := by
  have hcl : compressLeft row =
      row.filter (fun x => x ≠ 1) ++
        List.replicate (4 - (row.filter (fun x => x ≠ 1)).length) 1 := by
    unfold compressLeft
    rw [h]
  have hrl : Spec2048.rowLeft 4 row =
      Spec2048.padTo 4 (Spec2048.mergePairs (row.filter (fun x => x ≠ 1))) := rfl
  rw [hcl, hrl]
  have hlen : (row.filter (fun x => x ≠ 1)).length ≤ 4 := h ▸ List.length_filter_le _ row
  have hno : ∀ x ∈ row.filter (fun x => x ≠ 1), x ≠ 1 := by
    intro x hx
    simpa using (List.mem_filter.mp hx).2
  generalize hocc : row.filter (fun x => x ≠ 1) = occ at hlen hno ⊢
  rcases occ with _ | ⟨a, _ | ⟨b, _ | ⟨c, _ | ⟨d, _ | ⟨e, tl⟩⟩⟩⟩⟩
  · decide
  · exact leftRun1 a (hno a (by simp))
  · exact leftRun2 a b (hno a (by simp)) (hno b (by simp))
  · exact leftRun3 a b c (hno a (by simp)) (hno b (by simp)) (hno c (by simp))
  · exact leftRun4 a b c d (hno a (by simp)) (hno b (by simp)) (hno c (by simp))
      (hno d (by simp))
  · simp at hlen

theorem rightStep3_pos (a b c d : Int) (h : d = c) (h1 : d ≠ 1) :
    rightStep [a,b,c,d] 3 = [1, a, b, 2*d] := by
  have h2 : c ≠ 1 := h ▸ h1
  simp [rightStep, h, h1, h2]

theorem rightStep3_neg (a b c d : Int) (h : ¬(d = c ∧ d ≠ 1)) :
    rightStep [a,b,c,d] 3 = [a,b,c,d] := by
  simp only [rightStep]
  rw [if_neg]
  simpa using h

theorem rightStep2_pos (a b c d : Int) (h : c = b) (h1 : c ≠ 1) :
    rightStep [a,b,c,d] 2 = [1, a, 2*c, d] := by
  have h2 : b ≠ 1 := h ▸ h1
  simp [rightStep, h, h1, h2]

theorem rightStep2_neg (a b c d : Int) (h : ¬(c = b ∧ c ≠ 1)) :
    rightStep [a,b,c,d] 2 = [a,b,c,d] := by
  simp only [rightStep]
  rw [if_neg]
  simpa using h

theorem rightStep1_pos (a b c d : Int) (h : b = a) (h1 : b ≠ 1) :
    rightStep [a,b,c,d] 1 = [1, 2*b, c, d] := by
  have h2 : a ≠ 1 := h ▸ h1
  simp [rightStep, h, h1, h2]

theorem rightStep1_neg (a b c d : Int) (h : ¬(b = a ∧ b ≠ 1)) :
    rightStep [a,b,c,d] 1 = [a,b,c,d] := by
  simp only [rightStep]
  rw [if_neg]
  simpa using h

theorem foldl_rightRange3 (l : List Int) :
    (descIdx 4).foldl rightStep l = rightStep (rightStep (rightStep l 3) 2) 1 := rfl

theorem rightRun4 (a b c d : Int) (ha : a ≠ 1) (hb : b ≠ 1) (hc : c ≠ 1) (hd : d ≠ 1) :
    (descIdx 4).foldl rightStep [a,b,c,d] =
    (Spec2048.padTo 4 (Spec2048.mergePairs [d,c,b,a])).reverse := by
  rw [foldl_rightRange3]
  by_cases h1 : d = c
  · rw [rightStep3_pos a b c d h1 hd]
    by_cases h2 : b = a
    · rw [rightStep2_pos 1 a b (2*d) h2 hb, rightStep1_neg 1 1 (2*b) (2*d) (by simp)]
      simp [Spec2048.mergePairs, Spec2048.padTo, h1, h2, ha, hb, hc, hd]
    · rw [rightStep2_neg 1 a b (2*d) (by tauto), rightStep1_neg 1 a b (2*d) (by tauto)]
      simp [Spec2048.mergePairs, Spec2048.padTo, h1, h2, ha, hb, hc, hd]
  · rw [rightStep3_neg a b c d (by tauto)]
    by_cases h2 : c = b
    · rw [rightStep2_pos a b c d h2 hc, rightStep1_neg 1 a (2*c) d (by tauto)]
      have h1b : ¬ d = b := h2 ▸ h1
      simp [Spec2048.mergePairs, Spec2048.padTo, h1, h2, h1b, ha, hb, hc, hd]
    · rw [rightStep2_neg a b c d (by tauto)]
      by_cases h3 : b = a
      · rw [rightStep1_pos a b c d h3 hb]
        have h2a : ¬ c = a := h3 ▸ h2
        simp [Spec2048.mergePairs, Spec2048.padTo, h1, h2, h3, h2a, ha, hb, hc, hd]
      · rw [rightStep1_neg a b c d (by tauto)]
        simp [Spec2048.mergePairs, Spec2048.padTo, h1, h2, h3, ha, hb, hc, hd]

theorem rightRun3 (a b c : Int) (ha : a ≠ 1) (hb : b ≠ 1) (hc : c ≠ 1) :
    (descIdx 4).foldl rightStep [1,a,b,c] =
    (Spec2048.padTo 4 (Spec2048.mergePairs [c,b,a])).reverse := by
  rw [foldl_rightRange3]
  by_cases h1 : c = b
  · rw [rightStep3_pos 1 a b c h1 hc,
      rightStep2_neg 1 1 a (2*c) (by tauto),
      rightStep1_neg 1 1 a (2*c) (by simp)]
    simp [Spec2048.mergePairs, Spec2048.padTo, h1, ha, hb, hc]
  · rw [rightStep3_neg 1 a b c (by tauto)]
    by_cases h2 : b = a
    · rw [rightStep2_pos 1 a b c h2 hb, rightStep1_neg 1 1 (2*b) c (by simp)]
      have h1a : ¬ c = a := h2 ▸ h1
      simp [Spec2048.mergePairs, Spec2048.padTo, h1, h2, h1a, ha, hb, hc]
    · rw [rightStep2_neg 1 a b c (by tauto), rightStep1_neg 1 a b c (by tauto)]
      simp [Spec2048.mergePairs, Spec2048.padTo, h1, h2, ha, hb, hc]

theorem rightRun2 (a b : Int) (ha : a ≠ 1) (hb : b ≠ 1) :
    (descIdx 4).foldl rightStep [1,1,a,b] =
    (Spec2048.padTo 4 (Spec2048.mergePairs [b,a])).reverse := by
  rw [foldl_rightRange3]
  by_cases h1 : b = a
  · rw [rightStep3_pos 1 1 a b h1 hb,
      rightStep2_neg 1 1 1 (2*b) (by simp),
      rightStep1_neg 1 1 1 (2*b) (by simp)]
    simp [Spec2048.mergePairs, Spec2048.padTo, h1, ha, hb]
  · rw [rightStep3_neg 1 1 a b (by tauto),
      rightStep2_neg 1 1 a b (by tauto),
      rightStep1_neg 1 1 a b (by simp)]
    simp [Spec2048.mergePairs, Spec2048.padTo, h1, ha, hb]

theorem rightRun1 (a : Int) (ha : a ≠ 1) :
    (descIdx 4).foldl rightStep [1,1,1,a] =
    (Spec2048.padTo 4 (Spec2048.mergePairs [a])).reverse := by
  rw [foldl_rightRange3,
    rightStep3_neg 1 1 1 a (by tauto),
    rightStep2_neg 1 1 1 a (by simp),
    rightStep1_neg 1 1 1 a (by simp)]
  simp [Spec2048.mergePairs, Spec2048.padTo]

theorem right_spec_row (row : List Int) (h : row.length = 4) :
    (descIdx 4).foldl rightStep (compressRight row) = Spec2048.rowRight 4 row := by
  have hcl : compressRight row =
      List.replicate (4 - (row.filter (fun x => x ≠ 1)).length) 1 ++
        row.filter (fun x => x ≠ 1) := by
    unfold compressRight
    rw [h]
  have hrl : Spec2048.rowRight 4 row =
      (Spec2048.padTo 4 (Spec2048.mergePairs ((row.filter (fun x => x ≠ 1)).reverse))).reverse :=
    rfl
  rw [hcl, hrl]
  have hlen : (row.filter (fun x => x ≠ 1)).length ≤ 4 := h ▸ List.length_filter_le _ row
  have hno : ∀ x ∈ row.filter (fun x => x ≠ 1), x ≠ 1 := by
    intro x hx
    simpa using (List.mem_filter.mp hx).2
  generalize hocc : row.filter (fun x => x ≠ 1) = occ at hlen hno ⊢
  rcases occ with _ | ⟨a, _ | ⟨b, _ | ⟨c, _ | ⟨d, _ | ⟨e, tl⟩⟩⟩⟩⟩
  · decide
  · exact rightRun1 a (hno a (by simp))
  · exact rightRun2 a b (hno a (by simp)) (hno b (by simp))
  · exact rightRun3 a b c (hno a (by simp)) (hno b (by simp)) (hno c (by simp))
  · exact rightRun4 a b c d (hno a (by simp)) (hno b (by simp)) (hno c (by simp))
      (hno d (by simp))
  · simp at hlen

theorem downPhaseA_eq (col : List Int) (h : col.length = 4) :
    downPhaseA col = compressRight col := by
  rcases col with _ | ⟨p, _ | ⟨q, _ | ⟨r, _ | ⟨s, _ | ⟨t, tl⟩⟩⟩⟩⟩ <;> simp at h
  show (([3,2,1,0] : List Nat).foldl (downShift [p,q,r,s]) ([1,1,1,1], 4)).1 =
    compressRight [p,q,r,s]
  simp only [List.foldl_cons, List.foldl_nil]
  by_cases hp : p = 1 <;> by_cases hq : q = 1 <;> by_cases hr : r = 1 <;> by_cases hs : s = 1 <;>
    simp [downShift, compressRight, hp, hq, hr, hs]

theorem downPhaseCD_eq (l : List Int) (h : l.length = 4) :
    downPhaseCD l 4 = compressRight l := by
  rcases l with _ | ⟨p, _ | ⟨q, _ | ⟨r, _ | ⟨s, _ | ⟨t, tl⟩⟩⟩⟩⟩ <;> simp at h
  show fillOnes (([3,2,1,0] : List Nat).foldl
      (fun st rowc => downShift st.1 st rowc) ([p,q,r,s], 4)).1
    (([3,2,1,0] : List Nat).foldl (fun st rowc => downShift st.1 st rowc) ([p,q,r,s], 4)).2 =
    compressRight [p,q,r,s]
  simp only [List.foldl_cons, List.foldl_nil]
  by_cases hp : p = 1 <;> by_cases hq : q = 1 <;> by_cases hr : r = 1 <;> by_cases hs : s = 1 <;>
    simp [downShift, fillOnes, compressRight, hp, hq, hr, hs]

theorem downMerge3_pos (a b c d : Int) (h : d = c) (h1 : d ≠ 1) :
    downMergeStep [a,b,c,d] 3 = [a,b,1,2*d] := by
  have h2 : c ≠ 1 := h ▸ h1
  simp [downMergeStep, h, h1, h2]

theorem downMerge3_neg (a b c d : Int) (h : ¬(d = c ∧ d ≠ 1)) :
    downMergeStep [a,b,c,d] 3 = [a,b,c,d] := by
  simp only [downMergeStep]
  rw [if_neg]
  simpa using h

theorem downMerge2_pos (a b c d : Int) (h : c = b) (h1 : c ≠ 1) :
    downMergeStep [a,b,c,d] 2 = [a,1,2*c,d] := by
  have h2 : b ≠ 1 := h ▸ h1
  simp [downMergeStep, h, h1, h2]

theorem downMerge2_neg (a b c d : Int) (h : ¬(c = b ∧ c ≠ 1)) :
    downMergeStep [a,b,c,d] 2 = [a,b,c,d] := by
  simp only [downMergeStep]
  rw [if_neg]
  simpa using h

theorem downMerge1_pos (a b c d : Int) (h : b = a) (h1 : b ≠ 1) :
    downMergeStep [a,b,c,d] 1 = [1,2*b,c,d] := by
  have h2 : a ≠ 1 := h ▸ h1
  simp [downMergeStep, h, h1, h2]

theorem downMerge1_neg (a b c d : Int) (h : ¬(b = a ∧ b ≠ 1)) :
    downMergeStep [a,b,c,d] 1 = [a,b,c,d] := by
  simp only [downMergeStep]
  rw [if_neg]
  simpa using h

theorem downPhaseB_steps (l : List Int) :
    downPhaseB l 4 = downMergeStep (downMergeStep (downMergeStep l 3) 2) 1 := rfl

theorem downRun4 (a b c d : Int) (ha : a ≠ 1) (hb : b ≠ 1) (hc : c ≠ 1) (hd : d ≠ 1) :
    downPhaseCD (downPhaseB [a,b,c,d] 4) 4 =
    (Spec2048.padTo 4 (Spec2048.mergePairs [d,c,b,a])).reverse := by
  rw [downPhaseB_steps]
  have h2x : ∀ x : Int, 2*x ≠ 1 := by intro x; omega
  by_cases h1 : d = c
  · rw [downMerge3_pos a b c d h1 hd, downMerge2_neg a b 1 (2*d) (by simp)]
    by_cases h2 : b = a
    · rw [downMerge1_pos a b 1 (2*d) h2 hb, downPhaseCD_eq [1,2*b,1,2*d] (by simp)]
      simp [compressRight, Spec2048.mergePairs, Spec2048.padTo, h1, h2, ha, hb, hc, hd, h2x]
    · rw [downMerge1_neg a b 1 (2*d) (by tauto), downPhaseCD_eq [a,b,1,2*d] (by simp)]
      simp [compressRight, Spec2048.mergePairs, Spec2048.padTo, h1, h2, ha, hb, hc, hd, h2x]
  · rw [downMerge3_neg a b c d (by tauto)]
    by_cases h2 : c = b
    · rw [downMerge2_pos a b c d h2 hc, downMerge1_neg a 1 (2*c) d (by simp)]
      rw [downPhaseCD_eq [a,1,2*c,d] (by simp)]
      have h1b : ¬ d = b := h2 ▸ h1
      simp [compressRight, Spec2048.mergePairs, Spec2048.padTo, h1, h2, h1b, ha, hb, hc, hd, h2x]
    · rw [downMerge2_neg a b c d (by tauto)]
      by_cases h3 : b = a
      · rw [downMerge1_pos a b c d h3 hb, downPhaseCD_eq [1,2*b,c,d] (by simp)]
        have h2a : ¬ c = a := h3 ▸ h2
        simp [compressRight, Spec2048.mergePairs, Spec2048.padTo, h1, h2, h3, h2a, ha, hb, hc,
          hd, h2x]
      · rw [downMerge1_neg a b c d (by tauto), downPhaseCD_eq [a,b,c,d] (by simp)]
        simp [compressRight, Spec2048.mergePairs, Spec2048.padTo, h1, h2, h3, ha, hb, hc, hd]

theorem downRun3 (a b c : Int) (ha : a ≠ 1) (hb : b ≠ 1) (hc : c ≠ 1) :
    downPhaseCD (downPhaseB [1,a,b,c] 4) 4 =
    (Spec2048.padTo 4 (Spec2048.mergePairs [c,b,a])).reverse := by
  rw [downPhaseB_steps]
  have h2x : ∀ x : Int, 2*x ≠ 1 := by intro x; omega
  by_cases h1 : c = b
  · rw [downMerge3_pos 1 a b c h1 hc, downMerge2_neg 1 a 1 (2*c) (by simp),
      downMerge1_neg 1 a 1 (2*c) (by tauto), downPhaseCD_eq [1,a,1,2*c] (by simp)]
    simp [compressRight, Spec2048.mergePairs, Spec2048.padTo, h1, ha, hb, hc, h2x]
  · rw [downMerge3_neg 1 a b c (by tauto)]
    by_cases h2 : b = a
    · rw [downMerge2_pos 1 a b c h2 hb, downMerge1_neg 1 1 (2*b) c (by simp),
        downPhaseCD_eq [1,1,2*b,c] (by simp)]
      have h1a : ¬ c = a := h2 ▸ h1
      simp [compressRight, Spec2048.mergePairs, Spec2048.padTo, h1, h2, h1a, ha, hb, hc, h2x]
    · rw [downMerge2_neg 1 a b c (by tauto), downMerge1_neg 1 a b c (by tauto),
        downPhaseCD_eq [1,a,b,c] (by simp)]
      simp [compressRight, Spec2048.mergePairs, Spec2048.padTo, h1, h2, ha, hb, hc]

theorem downRun2 (a b : Int) (ha : a ≠ 1) (hb : b ≠ 1) :
    downPhaseCD (downPhaseB [1,1,a,b] 4) 4 =
    (Spec2048.padTo 4 (Spec2048.mergePairs [b,a])).reverse := by
  rw [downPhaseB_steps]
  have h2x : ∀ x : Int, 2*x ≠ 1 := by intro x; omega
  by_cases h1 : b = a
  · rw [downMerge3_pos 1 1 a b h1 hb, downMerge2_neg 1 1 1 (2*b) (by simp),
      downMerge1_neg 1 1 1 (2*b) (by simp), downPhaseCD_eq [1,1,1,2*b] (by simp)]
    simp [compressRight, Spec2048.mergePairs, Spec2048.padTo, h1, ha, hb, h2x]
  · rw [downMerge3_neg 1 1 a b (by tauto), downMerge2_neg 1 1 a b (by tauto),
      downMerge1_neg 1 1 a b (by simp), downPhaseCD_eq [1,1,a,b] (by simp)]
    simp [compressRight, Spec2048.mergePairs, Spec2048.padTo, h1, ha, hb]

theorem downRun1 (a : Int) (ha : a ≠ 1) :
    downPhaseCD (downPhaseB [1,1,1,a] 4) 4 =
    (Spec2048.padTo 4 (Spec2048.mergePairs [a])).reverse := by
  rw [downPhaseB_steps, downMerge3_neg 1 1 1 a (by tauto), downMerge2_neg 1 1 1 a (by simp),
    downMerge1_neg 1 1 1 a (by simp), downPhaseCD_eq [1,1,1,a] (by simp)]
  simp [compressRight, Spec2048.mergePairs, Spec2048.padTo, ha]

theorem down_spec_col (col : List Int) (h : col.length = 4) :
    downCol col = Spec2048.rowRight 4 col := by
  unfold downCol
  rw [h, downPhaseA_eq col h]
  have hcl : compressRight col =
      List.replicate (4 - (col.filter (fun x => x ≠ 1)).length) 1 ++
        col.filter (fun x => x ≠ 1) := by
    unfold compressRight
    rw [h]
  have hrl : Spec2048.rowRight 4 col =
      (Spec2048.padTo 4 (Spec2048.mergePairs ((col.filter (fun x => x ≠ 1)).reverse))).reverse :=
    rfl
  rw [hcl, hrl]
  have hlen : (col.filter (fun x => x ≠ 1)).length ≤ 4 := h ▸ List.length_filter_le _ col
  have hno : ∀ x ∈ col.filter (fun x => x ≠ 1), x ≠ 1 := by
    intro x hx
    simpa using (List.mem_filter.mp hx).2
  generalize hocc : col.filter (fun x => x ≠ 1) = occ at hlen hno ⊢
  rcases occ with _ | ⟨a, _ | ⟨b, _ | ⟨c, _ | ⟨d, _ | ⟨e, tl⟩⟩⟩⟩⟩
  · decide
  · exact downRun1 a (hno a (by simp))
  · exact downRun2 a b (hno a (by simp)) (hno b (by simp))
  · exact downRun3 a b c (hno a (by simp)) (hno b (by simp)) (hno c (by simp))
  · exact downRun4 a b c d (hno a (by simp)) (hno b (by simp)) (hno c (by simp))
      (hno d (by simp))
  · simp at hlen

theorem row4_shape (r : List Int) (h : r.length = 4) : ∃ a b c d : Int, r = [a,b,c,d] := by
  rcases r with _ | ⟨a, _ | ⟨b, _ | ⟨c, _ | ⟨d, _ | ⟨e, tl⟩⟩⟩⟩⟩ <;> simp at h
  exact ⟨a, b, c, d, rfl⟩

theorem wf4_shape (b : Board) (h : WF4 b) :
    ∃ r0 r1 r2 r3 : List Int, b = [r0, r1, r2, r3] ∧
      r0.length = 4 ∧ r1.length = 4 ∧ r2.length = 4 ∧ r3.length = 4 := by
  obtain ⟨hlen, hrow⟩ := h
  rcases b with _ | ⟨r0, _ | ⟨r1, _ | ⟨r2, _ | ⟨r3, _ | ⟨r4, tl⟩⟩⟩⟩⟩ <;> simp at hlen
  exact ⟨r0, r1, r2, r3, rfl, hrow r0 (by simp), hrow r1 (by simp), hrow r2 (by simp),
    hrow r3 (by simp)⟩

/-- On well-formed 4×4 boards `left` implements the §4.1 description. -/
theorem left_spec (b : Board) (h : WF4 b) : left b = Spec2048.leftB b := by
  obtain ⟨r0, r1, r2, r3, hb, h0, h1, h2, h3⟩ := wf4_shape b h
  subst hb
  show List.map _ _ = List.map _ _
  simp only [List.map, List.headD_cons, h0]
  rw [left_spec_row r0 h0, left_spec_row r1 h1, left_spec_row r2 h2, left_spec_row r3 h3]

/-- On well-formed 4×4 boards `right` implements the §4.1 description. -/
theorem right_spec (b : Board) (h : WF4 b) : right b = Spec2048.rightB b := by
  obtain ⟨r0, r1, r2, r3, hb, h0, h1, h2, h3⟩ := wf4_shape b h
  subst hb
  show List.map _ _ = List.map _ _
  simp only [List.map, List.headD_cons, h0]
  rw [right_spec_row r0 h0, right_spec_row r1 h1, right_spec_row r2 h2, right_spec_row r3 h3]

/-- On well-formed 4×4 boards `down` implements the §4.1 description. -/
theorem down_spec (b : Board) (h : WF4 b) : down b = Spec2048.downB b := by
  obtain ⟨r0, r1, r2, r3, hb, h0, h1, h2, h3⟩ := wf4_shape b h
  subst hb
  unfold down Spec2048.downB
  simp only [List.headD_cons, h0, List.length_cons, List.length_nil]
  norm_num
  intro i _ j _
  rw [down_spec_col _ (by simp)]

/-! ### Value-level facts about `mergePairs` -/

theorem mergePairs_cons2 (a b : Int) (rest : List Int) :
    Spec2048.mergePairs (a :: b :: rest) =
    if a = b ∧ a ≠ 1 then (2*a) :: Spec2048.mergePairs rest
    else a :: Spec2048.mergePairs (b :: rest) := rfl

theorem mergePairs_length_le : ∀ l : List Int, (Spec2048.mergePairs l).length ≤ l.length
  | [] => by simp [Spec2048.mergePairs]
  | [a] => by simp [Spec2048.mergePairs]
  | a :: b :: rest => by
    rw [mergePairs_cons2]
    split_ifs
    · have := mergePairs_length_le rest
      simp only [List.length_cons]
      omega
    · have := mergePairs_length_le (b :: rest)
      simp only [List.length_cons] at this ⊢
      omega

theorem mergePairs_ne_one : ∀ l : List Int, (∀ x ∈ l, x ≠ 1) →
    ∀ x ∈ Spec2048.mergePairs l, x ≠ 1
  | [], _, x, hx => by simp [Spec2048.mergePairs] at hx
  | [a], h, x, hx => by
    simp [Spec2048.mergePairs] at hx
    subst hx
    exact h x (by simp)
  | a :: b :: rest, h, x, hx => by
    rw [mergePairs_cons2] at hx
    split_ifs at hx
    · rcases List.mem_cons.mp hx with h1 | h1
      · subst h1
        omega
      · exact mergePairs_ne_one rest (fun y hy => h y (by simp [hy])) x h1
    · rcases List.mem_cons.mp hx with h1 | h1
      · subst h1
        exact h x (by simp)
      · exact mergePairs_ne_one (b :: rest) (fun y hy => by
          rcases List.mem_cons.mp hy with h2 | h2
          · subst h2; exact h y (by simp)
          · exact h y (by simp [h2])) x h1

theorem validCell_double {c : Int} (h : ValidCell c) : ValidCell (2*c) := by
  obtain ⟨k, hk⟩ := h
  exact ⟨k+1, by rw [hk]; ring⟩

theorem mergePairs_valid : ∀ l : List Int, (∀ x ∈ l, ValidCell x) →
    ∀ x ∈ Spec2048.mergePairs l, ValidCell x
  | [], _, x, hx => by simp [Spec2048.mergePairs] at hx
  | [a], h, x, hx => by
    simp [Spec2048.mergePairs] at hx
    subst hx
    exact h x (by simp)
  | a :: b :: rest, h, x, hx => by
    rw [mergePairs_cons2] at hx
    split_ifs at hx
    · rcases List.mem_cons.mp hx with h1 | h1
      · subst h1
        exact validCell_double (h a (by simp))
      · exact mergePairs_valid rest (fun y hy => h y (by simp [hy])) x h1
    · rcases List.mem_cons.mp hx with h1 | h1
      · subst h1
        exact h x (by simp)
      · exact mergePairs_valid (b :: rest) (fun y hy => by
          rcases List.mem_cons.mp hy with h2 | h2
          · subst h2; exact h y (by simp)
          · exact h y (by simp [h2])) x h1

theorem rowLeft_valid (n : Nat) (row : List Int) (h : ∀ x ∈ row, ValidCell x) :
    ∀ x ∈ Spec2048.rowLeft n row, ValidCell x := by
  intro x hx
  unfold Spec2048.rowLeft Spec2048.padTo at hx
  rcases List.mem_append.mp hx with h1 | h1
  · exact mergePairs_valid _ (fun y hy => h y (List.mem_of_mem_filter hy)) x h1
  · rw [List.eq_of_mem_replicate h1]
    exact ⟨0, rfl⟩

theorem rowRight_valid (n : Nat) (row : List Int) (h : ∀ x ∈ row, ValidCell x) :
    ∀ x ∈ Spec2048.rowRight n row, ValidCell x := by
  intro x hx
  unfold Spec2048.rowRight Spec2048.padTo at hx
  rw [List.mem_reverse] at hx
  rcases List.mem_append.mp hx with h1 | h1
  · refine mergePairs_valid _ (fun y hy => ?_) x h1
    rw [List.mem_reverse] at hy
    exact h y (List.mem_of_mem_filter hy)
  · rw [List.eq_of_mem_replicate h1]
    exact ⟨0, rfl⟩

theorem rowRight_length (n : Nat) (row : List Int) (h : row.length ≤ n) :
    (Spec2048.rowRight n row).length = n := by
  unfold Spec2048.rowRight Spec2048.padTo
  have h1 : (Spec2048.mergePairs ((row.filter (fun x => x ≠ 1)).reverse)).length ≤ n := by
    calc (Spec2048.mergePairs ((row.filter (fun x => x ≠ 1)).reverse)).length
        ≤ ((row.filter (fun x => x ≠ 1)).reverse).length := mergePairs_length_le _
      _ ≤ row.length := by
          rw [List.length_reverse]
          exact List.length_filter_le _ _
      _ ≤ n := h
  rw [List.length_reverse, List.length_append, List.length_replicate]
  omega

/-! ### Multiset conservation (`MergedFrom`) -/

/-- `MergedFrom s t`: the multiset `t` is obtained from `s` by replacing
zero or more disjoint pairs of equal elements by their sums. -/
inductive MergedFrom : Multiset Int → Multiset Int → Prop
  | refl (s : Multiset Int) : MergedFrom s s
  | step (a : Int) (s t : Multiset Int) : MergedFrom s t →
      MergedFrom (a ::ₘ a ::ₘ s) (2*a ::ₘ t)

theorem MergedFrom.cons (a : Int) {s t : Multiset Int} (h : MergedFrom s t) :
    MergedFrom (a ::ₘ s) (a ::ₘ t) := by
  induction h with
  | refl s => exact .refl _
  | step x s' t' h ih =>
    have e1 : a ::ₘ x ::ₘ x ::ₘ s' = x ::ₘ x ::ₘ a ::ₘ s' := by
      rw [Multiset.cons_swap a x (x ::ₘ s'), Multiset.cons_swap a x s']
    have e2 : a ::ₘ 2*x ::ₘ t' = 2*x ::ₘ a ::ₘ t' := Multiset.cons_swap a (2*x) t'
    rw [e1, e2]
    exact .step x _ _ ih

theorem MergedFrom.append (u : Multiset Int) {s t : Multiset Int} (h : MergedFrom s t) :
    MergedFrom (u + s) (u + t) := by
  induction u using Multiset.induction_on with
  | empty => simpa using h
  | cons a u ih =>
    rw [Multiset.cons_add, Multiset.cons_add]
    exact ih.cons a

theorem MergedFrom.add_add {s t s' t' : Multiset Int} (h : MergedFrom s t)
    (h' : MergedFrom s' t') : MergedFrom (s + s') (t + t') := by
  induction h with
  | refl s => exact h'.append s
  | step a u v huv ih =>
    simp only [Multiset.cons_add]
    exact .step a _ _ ih

theorem mergePairs_mf : ∀ l : List Int,
    MergedFrom (↑l) (↑(Spec2048.mergePairs l))
  | [] => .refl _
  | [a] => .refl _
  | a :: b :: rest => by
    rw [mergePairs_cons2]
    split_ifs with hab
    · obtain ⟨hab1, -⟩ := hab
      subst hab1
      show MergedFrom (a ::ₘ a ::ₘ (↑rest : Multiset Int)) (2*a ::ₘ ↑(Spec2048.mergePairs rest))
      exact .step a _ _ (mergePairs_mf rest)
    · show MergedFrom (a ::ₘ (↑(b :: rest) : Multiset Int))
        (a ::ₘ ↑(Spec2048.mergePairs (b :: rest)))
      exact (mergePairs_mf (b :: rest)).cons a

/-- The multiset of occupied (non-sentinel) values of a list of cells. -/
def occL (l : List Int) : Multiset Int := (↑l : Multiset Int).filter (fun x => x ≠ 1)

/-- The multiset of occupied (non-sentinel) tile values of a board. -/
def occB (b : Board) : Multiset Int := occL b.flatten

/-- Column `j` of a board. -/
def colOf (b : Board) (j : Nat) : List Int := b.map (fun row => row.getD j 0)

theorem coe_cons_eq (a : Int) (l : List Int) :
    ((a :: l : List Int) : Multiset Int) = {a} + ↑l := by
  rw [← Multiset.cons_coe, ← Multiset.singleton_add]

theorem occL_append (l1 l2 : List Int) : occL (l1 ++ l2) = occL l1 + occL l2 := by
  unfold occL
  rw [← Multiset.coe_add, Multiset.filter_add]

theorem occL_coe (l : List Int) : occL l = ↑(l.filter (fun x => x ≠ 1)) := by
  unfold occL
  simp

theorem occL_of_ne_one (l : List Int) (h : ∀ x ∈ l, x ≠ 1) : occL l = ↑l := by
  unfold occL
  rw [Multiset.filter_eq_self]
  simpa using h

theorem occL_replicate_one (k : Nat) : occL (List.replicate k 1) = 0 := by
  unfold occL
  rw [Multiset.filter_eq_nil]
  intro a ha
  simp at ha
  simp [ha.2]

theorem occL_rowLeft (n : Nat) (row : List Int) :
    occL (Spec2048.rowLeft n row) =
    ↑(Spec2048.mergePairs (row.filter (fun x => x ≠ 1))) := by
  unfold Spec2048.rowLeft Spec2048.padTo
  rw [occL_append, occL_replicate_one, add_zero]
  refine occL_of_ne_one _ (mergePairs_ne_one _ ?_)
  intro x hx
  simpa using (List.mem_filter.mp hx).2

theorem occL_rowRight (n : Nat) (row : List Int) :
    occL (Spec2048.rowRight n row) =
    ↑(Spec2048.mergePairs ((row.filter (fun x => x ≠ 1)).reverse)) := by
  unfold Spec2048.rowRight Spec2048.padTo occL
  rw [Multiset.coe_reverse, ← Multiset.coe_add, Multiset.filter_add]
  show occL _ + occL _ = _
  rw [occL_replicate_one, add_zero]
  refine occL_of_ne_one _ (mergePairs_ne_one _ ?_)
  intro x hx
  rw [List.mem_reverse] at hx
  simpa using (List.mem_filter.mp hx).2

theorem mf_rowLeft (n : Nat) (row : List Int) :
    MergedFrom (occL row) (occL (Spec2048.rowLeft n row)) := by
  rw [occL_coe row, occL_rowLeft]
  exact mergePairs_mf _

theorem mf_rowRight (n : Nat) (row : List Int) :
    MergedFrom (occL row) (occL (Spec2048.rowRight n row)) := by
  rw [occL_coe row, occL_rowRight, ← Multiset.coe_reverse]
  exact mergePairs_mf _

theorem occB_rows (r0 r1 r2 r3 : List Int) :
    occB [r0, r1, r2, r3] = occL r0 + (occL r1 + (occL r2 + occL r3)) := by
  unfold occB
  show occL (r0 ++ (r1 ++ (r2 ++ (r3 ++ [])))) = _
  rw [occL_append, occL_append, occL_append, occL_append]
  show _ + (_ + (_ + (_ + occL []))) = _
  rw [show occL [] = 0 from rfl, add_zero]

theorem occB_eq_cols (b : Board) (h : WF4 b) :
    occB b = occL (colOf b 0) + (occL (colOf b 1) + (occL (colOf b 2) + occL (colOf b 3))) := by
  obtain ⟨r0, r1, r2, r3, hb, h0, h1, h2, h3⟩ := wf4_shape b h
  subst hb
  obtain ⟨a00, a01, a02, a03, e0⟩ := row4_shape r0 h0
  obtain ⟨a10, a11, a12, a13, e1⟩ := row4_shape r1 h1
  obtain ⟨a20, a21, a22, a23, e2⟩ := row4_shape r2 h2
  obtain ⟨a30, a31, a32, a33, e3⟩ := row4_shape r3 h3
  subst e0 e1 e2 e3
  have e : (↑(List.flatten [[a00,a01,a02,a03],[a10,a11,a12,a13],[a20,a21,a22,a23],
      [a30,a31,a32,a33]]) : Multiset Int) =
      ↑([a00,a10,a20,a30] : List Int) + (↑([a01,a11,a21,a31] : List Int) +
        (↑([a02,a12,a22,a32] : List Int) + ↑([a03,a13,a23,a33] : List Int))) := by
    show (↑([a00,a01,a02,a03,a10,a11,a12,a13,a20,a21,a22,a23,a30,a31,a32,a33] : List Int) :
      Multiset Int) = _
    simp only [coe_cons_eq]
    abel
  unfold occB occL colOf
  simp only [List.map, List.getD_cons_zero, List.getD_cons_succ]
  rw [e, Multiset.filter_add, Multiset.filter_add, Multiset.filter_add]

theorem occB_downB (b : Board) (h : WF4 b) :
    occB (Spec2048.downB b) =
      occL (Spec2048.rowRight 4 (colOf b 0)) + (occL (Spec2048.rowRight 4 (colOf b 1)) +
        (occL (Spec2048.rowRight 4 (colOf b 2)) + occL (Spec2048.rowRight 4 (colOf b 3)))) := by
  have hcol : ∀ j : Nat, (colOf b j).length = 4 := by
    intro j
    unfold colOf
    rw [List.length_map, h.1]
  have hlen : ∀ j : Nat, (Spec2048.rowRight 4 (colOf b j)).length = 4 := fun j =>
    rowRight_length 4 _ (le_of_eq (hcol j))
  obtain ⟨w0, x0, y0, z0, e0⟩ := row4_shape _ (hlen 0)
  obtain ⟨w1, x1, y1, z1, e1⟩ := row4_shape _ (hlen 1)
  obtain ⟨w2, x2, y2, z2, e2⟩ := row4_shape _ (hlen 2)
  obtain ⟨w3, x3, y3, z3, e3⟩ := row4_shape _ (hlen 3)
  have hdb : Spec2048.downB b = [[w0,w1,w2,w3],[x0,x1,x2,x3],[y0,y1,y2,y3],[z0,z1,z2,z3]] := by
    unfold Spec2048.downB
    show [ [(Spec2048.rowRight 4 (List.map (fun row => row.getD 0 0) b)).getD 0 0,
        (Spec2048.rowRight 4 (List.map (fun row => row.getD 1 0) b)).getD 0 0,
        (Spec2048.rowRight 4 (List.map (fun row => row.getD 2 0) b)).getD 0 0,
        (Spec2048.rowRight 4 (List.map (fun row => row.getD 3 0) b)).getD 0 0],
      [(Spec2048.rowRight 4 (List.map (fun row => row.getD 0 0) b)).getD 1 0,
        (Spec2048.rowRight 4 (List.map (fun row => row.getD 1 0) b)).getD 1 0,
        (Spec2048.rowRight 4 (List.map (fun row => row.getD 2 0) b)).getD 1 0,
        (Spec2048.rowRight 4 (List.map (fun row => row.getD 3 0) b)).getD 1 0],
      [(Spec2048.rowRight 4 (List.map (fun row => row.getD 0 0) b)).getD 2 0,
        (Spec2048.rowRight 4 (List.map (fun row => row.getD 1 0) b)).getD 2 0,
        (Spec2048.rowRight 4 (List.map (fun row => row.getD 2 0) b)).getD 2 0,
        (Spec2048.rowRight 4 (List.map (fun row => row.getD 3 0) b)).getD 2 0],
      [(Spec2048.rowRight 4 (List.map (fun row => row.getD 0 0) b)).getD 3 0,
        (Spec2048.rowRight 4 (List.map (fun row => row.getD 1 0) b)).getD 3 0,
        (Spec2048.rowRight 4 (List.map (fun row => row.getD 2 0) b)).getD 3 0,
        (Spec2048.rowRight 4 (List.map (fun row => row.getD 3 0) b)).getD 3 0] ] = _
    rw [show (List.map (fun row => row.getD 0 0) b) = colOf b 0 from rfl,
      show (List.map (fun row => row.getD 1 0) b) = colOf b 1 from rfl,
      show (List.map (fun row => row.getD 2 0) b) = colOf b 2 from rfl,
      show (List.map (fun row => row.getD 3 0) b) = colOf b 3 from rfl,
      e0, e1, e2, e3]
    rfl
  rw [hdb, e0, e1, e2, e3, occB_rows]
  show occL [w0,w1,w2,w3] + (occL [x0,x1,x2,x3] + (occL [y0,y1,y2,y3] + occL [z0,z1,z2,z3])) = _
  unfold occL
  have e : ∀ p q r s : Int,
      ((↑([p,q,r,s] : List Int) : Multiset Int)) = {p} + ({q} + ({r} + {s})) := by
    intro p q r s
    simp only [coe_cons_eq]
    have : ((↑([] : List Int)) : Multiset Int) = 0 := rfl
    rw [this]
    abel
  rw [e w0 w1 w2 w3, e x0 x1 x2 x3, e y0 y1 y2 y3, e z0 z1 z2 z3,
    e w0 x0 y0 z0, e w1 x1 y1 z1, e w2 x2 y2 z2, e w3 x3 y3 z3]
  simp only [Multiset.filter_add]
  abel

theorem getD_mem_of_lt {α : Type} {l : List α} {i : Nat} (h : i < l.length) (d : α) :
    l.getD i d ∈ l := by
  rw [List.getD_eq_getElem?_getD, List.getElem?_eq_getElem h]
  simp

/-- C5: the merge loops of `left`, `right` and `down` coincide, on
well-formed 4×4 boards, with the §4.1 pairwise description `mergePairs`,
which consumes each merged pair whole and never revisits a merged cell —
so a cell produced by a merge never participates in a further merge in
the same call; in particular a `[2,2,2,2]` row moved left becomes
`[4,4,1,1]`, not `[8,1,1,1]`. -/
theorem c5_no_chain_merges :
    (∀ b : Board, WF4 b →
      left b = Spec2048.leftB b ∧ right b = Spec2048.rightB b ∧ down b = Spec2048.downB b) ∧
    left [[2,2,2,2],[1,1,1,1],[1,1,1,1],[1,1,1,1]] =
      [[4,4,1,1],[1,1,1,1],[1,1,1,1],[1,1,1,1]] :=
  ⟨fun b h => ⟨left_spec b h, right_spec b h, down_spec b h⟩, by decide⟩

/-- Witness for C5 at a concrete well-formed board. -/
theorem c5_witness :
    WF4 [[2,4,8,16],[1,1,1,1],[1,1,1,1],[1,1,1,1]] ∧
    left [[2,4,8,16],[1,1,1,1],[1,1,1,1],[1,1,1,1]] =
      Spec2048.leftB [[2,4,8,16],[1,1,1,1],[1,1,1,1],[1,1,1,1]] :=
  ⟨by decide, (c5_no_chain_merges.1 _ (by decide)).1⟩

/-- C2 (amended): on well-formed 4×4 boards, each single transform call
turns the occupied multiset of the input into the occupied multiset of
the output by replacing zero or more disjoint pairs of equal elements by
their sums — one pair per merge; a single call may perform several
merges, so the multiset can shrink by more than one element. -/
theorem c2_merge_conservation (b : Board) (h : WF4 b) :
    MergedFrom (occB b) (occB (left b)) ∧ MergedFrom (occB b) (occB (right b)) ∧
    MergedFrom (occB b) (occB (down b)) := by
  refine ⟨?_, ?_, ?_⟩
  · rw [left_spec b h]
    obtain ⟨r0, r1, r2, r3, hb, h0, h1, h2, h3⟩ := wf4_shape b h
    subst hb
    show MergedFrom (occB [r0, r1, r2, r3])
      (occB [Spec2048.rowLeft 4 r0, Spec2048.rowLeft 4 r1, Spec2048.rowLeft 4 r2,
        Spec2048.rowLeft 4 r3])
    rw [occB_rows, occB_rows]
    exact (mf_rowLeft 4 r0).add_add ((mf_rowLeft 4 r1).add_add
      ((mf_rowLeft 4 r2).add_add (mf_rowLeft 4 r3)))
  · rw [right_spec b h]
    obtain ⟨r0, r1, r2, r3, hb, h0, h1, h2, h3⟩ := wf4_shape b h
    subst hb
    show MergedFrom (occB [r0, r1, r2, r3])
      (occB [Spec2048.rowRight 4 r0, Spec2048.rowRight 4 r1, Spec2048.rowRight 4 r2,
        Spec2048.rowRight 4 r3])
    rw [occB_rows, occB_rows]
    exact (mf_rowRight 4 r0).add_add ((mf_rowRight 4 r1).add_add
      ((mf_rowRight 4 r2).add_add (mf_rowRight 4 r3)))
  · rw [down_spec b h, occB_eq_cols b h, occB_downB b h]
    exact (mf_rowRight 4 _).add_add ((mf_rowRight 4 _).add_add
      ((mf_rowRight 4 _).add_add (mf_rowRight 4 _)))

/-- Witness for C2 (amended) at a concrete well-formed board. -/
theorem c2_witness :
    WF4 [[2,2,2,2],[1,1,1,1],[1,1,1,1],[1,1,1,1]] ∧
    MergedFrom (occB [[2,2,2,2],[1,1,1,1],[1,1,1,1],[1,1,1,1]])
      (occB (left [[2,2,2,2],[1,1,1,1],[1,1,1,1],[1,1,1,1]])) :=
  ⟨by decide, (c2_merge_conservation _ (by decide)).1⟩

/-- C2 counterexample: on the board whose first row is `[2,2,2,2]`, the
`left` transform performs two merges, so the occupied multiset neither
stays the same nor shrinks by exactly one element. -/
theorem c2_counterexample :
    ¬ (occB (left [[2,2,2,2],[1,1,1,1],[1,1,1,1],[1,1,1,1]]) =
        occB [[2,2,2,2],[1,1,1,1],[1,1,1,1],[1,1,1,1]] ∨
      ∃ a t, occB [[2,2,2,2],[1,1,1,1],[1,1,1,1],[1,1,1,1]] = a ::ₘ a ::ₘ t ∧
        occB (left [[2,2,2,2],[1,1,1,1],[1,1,1,1],[1,1,1,1]]) = (a + a) ::ₘ t) := by
  have hc1 : Multiset.card (occB [[2,2,2,2],[1,1,1,1],[1,1,1,1],[1,1,1,1]]) = 4 := by decide
  have hc2 : Multiset.card
      (occB (left [[2,2,2,2],[1,1,1,1],[1,1,1,1],[1,1,1,1]])) = 2 := by decide
  intro hor
  rcases hor with h | ⟨a, t, h1, h2⟩
  · rw [h, hc1] at hc2
    omega
  · have e1 := congrArg Multiset.card h1
    have e2 := congrArg Multiset.card h2
    rw [hc1] at e1
    rw [hc2] at e2
    simp [Multiset.card_cons] at e1 e2
    omega

/-- C7: on well-formed 4×4 boards whose cells are all powers of two
(`2^0 = 1` is the sentinel), every cell of the board produced by each
transform is again a power of two — the sentinel or a tile value `≥ 2`;
no other value ever appears. -/
theorem c7_sentinel_invariant (b : Board) (h : WF4 b) (hv : AllValid b) :
    AllValid (left b) ∧ AllValid (right b) ∧ AllValid (down b) := by
  refine ⟨?_, ?_, ?_⟩
  · rw [left_spec b h]
    intro r hr c hc
    obtain ⟨row, hrow, hmap⟩ := List.mem_map.mp hr
    subst hmap
    exact rowLeft_valid 4 row (fun x hx => hv row hrow x hx) c hc
  · rw [right_spec b h]
    intro r hr c hc
    obtain ⟨row, hrow, hmap⟩ := List.mem_map.mp hr
    subst hmap
    exact rowRight_valid 4 row (fun x hx => hv row hrow x hx) c hc
  · rw [down_spec b h]
    intro r hr c hc
    unfold Spec2048.downB at hr
    obtain ⟨i, hi, hmap⟩ := List.mem_map.mp hr
    subst hmap
    obtain ⟨j, hj, hmap2⟩ := List.mem_map.mp hc
    subst hmap2
    have hi4 : i < 4 := List.mem_range.mp hi
    have hlen : (Spec2048.rowRight 4 (List.map (fun row => row.getD j 0) b)).length = 4 :=
      rowRight_length 4 _ (by rw [List.length_map, h.1])
    have hmem := getD_mem_of_lt (l := Spec2048.rowRight 4
      (List.map (fun row => row.getD j 0) b)) (i := i) (by omega) 0
    refine rowRight_valid 4 _ (fun x hx => ?_) _ hmem
    obtain ⟨row, hrow, hmap3⟩ := List.mem_map.mp hx
    subst hmap3
    have hj4 : j < 4 := List.mem_range.mp hj
    have : j < row.length := by rw [h.2 row hrow]; omega
    exact hv row hrow _ (getD_mem_of_lt this 0)

/-- Witness for C7 at a concrete valid board. -/
theorem c7_witness :
    WF4 [[2,2,2,1],[4,16,2,2],[8,64,32,8],[32,128,512,16384]] ∧
    AllValid (left [[2,2,2,1],[4,16,2,2],[8,64,32,8],[32,128,512,16384]]) :=
  ⟨by decide, (c7_sentinel_invariant _ (by decide)
    (allValid_of_b (by decide))).1⟩

/-- §7: a malformed board — empty, an empty first row, or ragged rows. -/
def Malformed (b : Board) : Prop :=
  b = [] ∨ b.headD [] = [] ∨ ∃ r ∈ b, r.length ≠ (b.headD []).length

instance : DecidablePred Malformed := fun b => by unfold Malformed; infer_instance

/-- The first element attaining the maximum key, in list order. -/
def firstMaxD {α : Type} (key : α → Int) : List α → Option α
  | [] => none
  | x :: xs =>
    match firstMaxD key xs with
    | none => some x
    | some m => if key x < key m then some m else some x

theorem insertDesc_head {α : Type} (key : α → Int) (x : α) (s : List α) :
    (insertDesc key x s).head? = some (match s.head? with
      | none => x
      | some y => if key x < key y then y else x) := by
  cases s with
  | nil => rfl
  | cons y ys =>
    show (if key x < key y then y :: insertDesc key x ys else x :: y :: ys).head? = _
    split_ifs with h <;> simp [h]

/-- The head of the stable descending sort is the first maximum. -/
theorem sortDesc_head {α : Type} (key : α → Int) :
    ∀ l : List α, (sortDesc key l).head? = firstMaxD key l
  | [] => rfl
  | x :: xs => by
    show (insertDesc key x (sortDesc key xs)).head? = _
    rw [insertDesc_head, sortDesc_head key xs]
    cases h : firstMaxD key xs with
    | none => simp [firstMaxD, h]
    | some m =>
      simp only [firstMaxD, h]
      split_ifs <;> rfl

/-- Specification of `firstMaxD`: it returns an element of the list that
is strictly greater than everything before it and at least everything
after it — the first leaf attaining the maximum, in generation order. -/
theorem firstMaxD_spec {α : Type} (key : α → Int) :
    ∀ (l : List α) (p : α), firstMaxD key l = some p →
      ∃ l1 l2, l = l1 ++ p :: l2 ∧ (∀ q ∈ l1, key q < key p) ∧ (∀ q ∈ l2, key q ≤ key p)
  | [], p, h => by simp [firstMaxD] at h
  | x :: xs, p, h => by
    rw [show firstMaxD key (x :: xs) = match firstMaxD key xs with
      | none => some x
      | some m => if key x < key m then some m else some x from rfl] at h
    cases hm : firstMaxD key xs with
    | none =>
      rw [hm] at h
      injection h with h
      subst h
      have hxs : xs = [] := by
        cases xs with
        | nil => rfl
        | cons y ys =>
          rw [show firstMaxD key (y :: ys) = match firstMaxD key ys with
            | none => some y
            | some m => if key y < key m then some m else some y from rfl] at hm
          cases h2 : firstMaxD key ys <;> rw [h2] at hm <;> simp at hm
          split at hm <;> simp at hm
      subst hxs
      exact ⟨[], [], rfl, by simp, by simp⟩
    | some m =>
      rw [hm] at h
      have h' : (if key x < key m then some m else some x) = some p := h
      obtain ⟨l1, l2, he, hlt, hle⟩ := firstMaxD_spec key xs m hm
      by_cases hx : key x < key m
      · rw [if_pos hx] at h'
        injection h' with h
        subst h
        refine ⟨x :: l1, l2, by rw [he]; rfl, ?_, hle⟩
        intro q hq
        rcases List.mem_cons.mp hq with h1 | h1
        · subst h1; exact hx
        · exact hlt q h1
      · rw [if_neg hx] at h'
        injection h' with h
        subst h
        refine ⟨[], xs, rfl, by simp, ?_⟩
        intro q hq
        have hmx : key m ≤ key x := not_lt.mp hx
        rw [he] at hq
        rcases List.mem_append.mp hq with h1 | h1
        · exact le_trans (le_of_lt (hlt q h1)) hmx
        · rcases List.mem_cons.mp h1 with h2 | h2
          · subst h2; exact hmx
          · exact le_trans (hle q h2) hmx

theorem bindE_ok {α β : Type} (a : α) (f : α → Except String β) :
    ((Except.ok a : Except String α) >>= f) = f a := rfl

theorem getE_eq {α : Type} [Inhabited α] {l : List α} {i : Nat} (h : i < l.length) (d : α) :
    getE l i = .ok (l.getD i d) := by
  unfold getE
  rw [dif_pos h]
  congr 1
  rw [List.getD_eq_getElem?_getD, List.getElem?_eq_getElem h]
  rfl

theorem getE2_eq {b : Board} {r c : Nat} (hr : r < b.length)
    (hc : c < (b.getD r []).length) : getE2 b r c = .ok (cellAt b r c) := by
  unfold getE2
  rw [getE_eq hr [], bindE_ok, getE_eq hc 0]
  rfl

theorem scanE_eq (row : List Int) (v : Int) (mv : String) :
    ∀ idxs : List Nat, (∀ i ∈ idxs, i < row.length) →
      scanE row idxs v mv = .ok (scanT row idxs v mv)
  | [], _ => rfl
  | i :: is, h => by
    show (getE row i >>= fun x =>
      if x = 1 then scanE row is v mv
      else if x = v then pure (some mv) else pure (some "undo")) = _
    rw [getE_eq (h i (by simp)) 0, bindE_ok]
    show (if _ then scanE row is v mv else _) = _
    by_cases h1 : row.getD i 0 = 1
    · rw [if_pos h1, scanE_eq row v mv is (fun j hj => h j (by simp [hj]))]
      show _ = .ok (if _ then scanT row is v mv else _)
      rw [if_pos h1]
    · rw [if_neg h1]
      show _ = .ok (if _ then scanT row is v mv else _)
      rw [if_neg h1]
      by_cases h2 : row.getD i 0 = v
      · rw [if_pos h2, if_pos h2]
        rfl
      · rw [if_neg h2, if_neg h2]
        rfl

/-- The head of the descending sort of a non-empty list is its maximum. -/
theorem sorted_head_max (l : List Int) (v : Int) (hmem : v ∈ l) (hmax : ∀ x ∈ l, x ≤ v) :
    (sortDesc (fun x => x) l).getD 0 0 = v := by
  rcases l with _ | ⟨a, as⟩
  · simp at hmem
  · have hh := sortDesc_head (fun x => x) (a :: as)
    cases hfm : firstMaxD (fun x => x) (a :: as) with
    | none =>
      unfold firstMaxD at hfm
      cases h2 : firstMaxD (fun x => x) as <;> rw [h2] at hfm
      · simp at hfm
      · rcases ite_eq_iff.mp hfm with ⟨-, h3⟩ | ⟨-, h3⟩ <;> exact Option.noConfusion h3
    | some m =>
      rw [hfm] at hh
      obtain ⟨l1, l2, he, hlt, hle⟩ := firstMaxD_spec _ _ m hfm
      have hmv : m = v := by
        have h1 : m ≤ v := hmax m (by rw [he]; exact List.mem_append.mpr (Or.inr (by simp)))
        have h2 : v ≤ m := by
          rw [he] at hmem
          rcases List.mem_append.mp hmem with h3 | h3
          · exact le_of_lt (hlt v h3)
          · rcases List.mem_cons.mp h3 with h4 | h4
            · exact le_of_eq h4
            · exact hle v h4
        exact le_antisymm h1 h2
      cases hs : sortDesc (fun x => x) (a :: as) with
      | nil => rw [hs] at hh; simp at hh
      | cons b bs =>
        rw [hs] at hh
        simp at hh
        simp [hh, hmv]

/-- Firing of one rank of `check_pivots` (`game.py` lines 154-173): if
the rank value `bl[(3-row)*4]` exceeds 64 and the guard of the rank
parity holds (even parity: value absent from the right boundary cell and
`bl_idx == 0` or the rank below correctly seated; odd parity: value
absent from the left boundary cell and the rank below correctly seated),
the iteration returns the inner scan decision for that parity. -/
theorem rankCheck_fires (b : Board) (bl : List Int) (row : Nat) (r : String)
    (h64 : 64 < bl.getD ((3-row)*4) 0)
    (hfire :
      ((3-row) % 2 = 0 ∧ bl.getD ((3-row)*4) 0 ≠ cellAt b row 3 ∧
        ((3-row)*4 = 0 ∨ cellAt b (row+1) 3 = bl.getD ((3-row)*4-1) 0) ∧
        scanT (b.getD row []) [3,2,1,0] (bl.getD ((3-row)*4) 0) "right" = some r) ∨
      ((3-row) % 2 = 1 ∧ bl.getD ((3-row)*4) 0 ≠ cellAt b row 0 ∧
        cellAt b (row+1) 0 = bl.getD ((3-row)*4-1) 0 ∧
        scanT (b.getD row []) [0,1,2,3] (bl.getD ((3-row)*4) 0) "left" = some r)) :
    rankCheck b bl row = some (some r) := by
  simp only [rankCheck]
  rw [if_neg (not_le.mpr h64)]
  rcases hfire with ⟨hpar, hne, hor, hscan⟩ | ⟨hpar, hne, hbelow, hscan⟩
  · rw [if_pos ⟨hpar, hne, hor⟩, hscan]
  · rw [if_neg (fun hc => by have h0 := hc.1; omega), if_pos ⟨hpar, hne, hbelow⟩, hscan]

/-- C4 (amended): whenever the pivot check fires at any rank `3-row` of
any board — the rank value taken from the descending sort exceeds 64,
the guard of the rank parity holds (the value is absent from the
boundary cell on the scanned side, and the rank below is correctly
seated or the rank is the bottom one), and every lower rank fell
through — the returned move is decided by the FIRST non-sentinel cell of
the inner scan of that row (from the right end for even-parity ranks,
from the left end for odd-parity ranks): `right`/`left` if that cell
holds the rank value, otherwise `undo`; the expected tile being findable
elsewhere in the row does not make the result `right`/`left`. -/
theorem c4_first_scanned (b : Board) (_hWF : WF4 b) (row : Nat) (hrow : row < 4)
    (bl : List Int) (hbl : bl = sortDesc (fun x => x) b.flatten) (r : String)
    (hprev : ∀ r0, r0 < 4 → row < r0 → rankCheck b bl r0 = none)
    (h64 : 64 < bl.getD ((3-row)*4) 0)
    (hfire :
      ((3-row) % 2 = 0 ∧ bl.getD ((3-row)*4) 0 ≠ cellAt b row 3 ∧
        ((3-row)*4 = 0 ∨ cellAt b (row+1) 3 = bl.getD ((3-row)*4-1) 0) ∧
        scanT (b.getD row []) [3,2,1,0] (bl.getD ((3-row)*4) 0) "right" = some r) ∨
      ((3-row) % 2 = 1 ∧ bl.getD ((3-row)*4) 0 ≠ cellAt b row 0 ∧
        cellAt b (row+1) 0 = bl.getD ((3-row)*4-1) 0 ∧
        scanT (b.getD row []) [0,1,2,3] (bl.getD ((3-row)*4) 0) "left" = some r)) :
    check_pivots b = some r := by
  subst hbl
  have hrank := rankCheck_fires b _ row r h64 hfire
  simp only [check_pivots]
  interval_cases row
  · rw [hprev 3 (by omega) (by omega), hprev 2 (by omega) (by omega),
      hprev 1 (by omega) (by omega), hrank]
  · rw [hprev 3 (by omega) (by omega), hprev 2 (by omega) (by omega), hrank]
  · rw [hprev 3 (by omega) (by omega), hrank]
  · rw [hrank]

/-- Witness for C4 (amended) at an odd-parity rank: the check falls
through the bottom rank (2048 is seated in the corner), fires at row 2
(rank 1, value 256, left scan), the first occupied cell of the left scan
holds 256, and `check_pivots` returns `left`. -/
theorem c4_witness :
    WF4 [[1,1,1,1],[1,1,1,1],[1,256,1,128],[256,512,1024,2048]] ∧
    scanT (([[1,1,1,1],[1,1,1,1],[1,256,1,128],[256,512,1024,2048]] : Board).getD 2 [])
      [0,1,2,3] 256 "left" = some "left" ∧
    check_pivots [[1,1,1,1],[1,1,1,1],[1,256,1,128],[256,512,1024,2048]] = some "left" :=
  ⟨by decide, by decide,
    c4_first_scanned _ (by decide) 2 (by decide) _ rfl "left" (by decide) (by decide)
      (by decide)⟩

/-- C4 counterexample: on this board the pivot check fires at the bottom
rank (maximum 128 > 64, corner holds 32 ≠ 128) and 128 IS findable in the
bottom row, yet `check_pivots` returns `undo`, not `right`, because the
first occupied cell scanned from the right is 32. -/
theorem c4_counterexample :
    (64:Int) < 128 ∧
    (∀ x ∈ ([[1,1,1,1],[1,1,1,1],[1,1,1,1],[128,1,1,32]] : Board).flatten, x ≤ 128) ∧
    cellAt [[1,1,1,1],[1,1,1,1],[1,1,1,1],[128,1,1,32]] 3 3 ≠ 128 ∧
    (128:Int) ∈ ([[1,1,1,1],[1,1,1,1],[1,1,1,1],[128,1,1,32]] : Board).getD 3 [] ∧
    check_pivots [[1,1,1,1],[1,1,1,1],[1,1,1,1],[128,1,1,32]] = some "undo" ∧
    check_pivots [[1,1,1,1],[1,1,1,1],[1,1,1,1],[128,1,1,32]] ≠ some "right" := by
  refine ⟨by decide, by decide, by decide, by decide, by decide, by decide⟩

theorem insertDesc_length {α : Type} (key : α → Int) (x : α) :
    ∀ l : List α, (insertDesc key x l).length = l.length + 1
  | [] => rfl
  | y :: ys => by
    show (if key x < key y then y :: insertDesc key x ys else x :: y :: ys).length = _
    split_ifs
    · show (y :: insertDesc key x ys).length = _
      rw [List.length_cons, insertDesc_length key x ys]
      rfl
    · rfl

theorem sortDesc_length {α : Type} (key : α → Int) :
    ∀ l : List α, (sortDesc key l).length = l.length
  | [] => rfl
  | x :: xs => by
    show (insertDesc key x (sortDesc key xs)).length = _
    rw [insertDesc_length, sortDesc_length key xs]
    rfl

theorem rankCheckE_eq3 (b : Board) (bl : List Int) (hWF : WF4 b) (hbl : bl.length = 16) :
    rankCheckE b bl 3 = .ok (rankCheck b bl 3) := by
  have hb4 : b.length = 4 := hWF.1
  have hrow3 : (b.getD 3 []).length = 4 := hWF.2 _ (getD_mem_of_lt (by omega) [])
  have hrow3' : (b[3]?.getD ([] : List Int)).length = 4 := by
    rw [← List.getD_eq_getElem?_getD]
    exact hrow3
  unfold rankCheckE rankCheck
  norm_num
  rw [getE_eq (show (0:Nat) < bl.length by omega) 0, List.getD_eq_getElem?_getD, bindE_ok]
  by_cases h64 : bl[0]?.getD 0 ≤ 64
  · rw [if_pos h64, if_pos h64]
    rfl
  · rw [if_neg h64, if_neg h64]
    rw [getE2_eq (show 3 < b.length by omega) (show 3 < (b.getD 3 []).length by omega), bindE_ok]
    by_cases hne : bl[0]?.getD 0 = cellAt b 3 3
    · rw [if_pos hne, if_pos hne]
      rfl
    · rw [if_neg hne, if_neg hne]
      rw [getE_eq (show 3 < b.length by omega) ([] : List Int), List.getD_eq_getElem?_getD,
        bindE_ok]
      rw [scanE_eq _ _ _ _ (by intro i hi; rw [hrow3']; simp at hi; omega), bindE_ok]
      cases scanT (b[3]?.getD []) [3, 2, 1, 0] (bl[0]?.getD 0) "right" <;> rfl

theorem rankCheckE_eq2 (b : Board) (bl : List Int) (hWF : WF4 b) (hbl : bl.length = 16) :
    rankCheckE b bl 2 = .ok (rankCheck b bl 2) := by
  have hb4 : b.length = 4 := hWF.1
  have hrow2 : (b.getD 2 []).length = 4 := hWF.2 _ (getD_mem_of_lt (by omega) [])
  have hrow3 : (b.getD 3 []).length = 4 := hWF.2 _ (getD_mem_of_lt (by omega) [])
  have hrow2' : (b[2]?.getD ([] : List Int)).length = 4 := by
    rw [← List.getD_eq_getElem?_getD]
    exact hrow2
  unfold rankCheckE rankCheck
  norm_num
  rw [getE_eq (show (4:Nat) < bl.length by omega) 0, List.getD_eq_getElem?_getD, bindE_ok]
  by_cases h64 : bl[4]?.getD 0 ≤ 64
  · rw [if_pos h64, if_pos h64]
    rfl
  · rw [if_neg h64, if_neg h64]
    rw [getE2_eq (show 2 < b.length by omega) (show 0 < (b.getD 2 []).length by omega), bindE_ok]
    by_cases hne : bl[4]?.getD 0 = cellAt b 2 0
    · rw [if_pos hne, if_neg (fun hc => hc.1 hne)]
      rfl
    · rw [if_neg hne]
      rw [getE2_eq (show 3 < b.length by omega) (show 0 < (b.getD 3 []).length by omega),
        bindE_ok]
      rw [getE_eq (show (3:Nat) < bl.length by omega) 0, List.getD_eq_getElem?_getD, bindE_ok]
      by_cases hbp : cellAt b 3 0 = bl[3]?.getD 0
      · rw [if_pos hbp, if_pos (And.intro hne hbp)]
        rw [getE_eq (show 2 < b.length by omega) ([] : List Int), List.getD_eq_getElem?_getD,
          bindE_ok]
        rw [scanE_eq _ _ _ _ (by intro i hi; rw [hrow2']; simp at hi; omega), bindE_ok]
        cases scanT (b[2]?.getD []) [0, 1, 2, 3] (bl[4]?.getD 0) "left" <;> rfl
      · rw [if_neg hbp, if_neg (fun hc => hbp hc.2)]
        rfl

theorem rankCheckE_eq1 (b : Board) (bl : List Int) (hWF : WF4 b) (hbl : bl.length = 16) :
    rankCheckE b bl 1 = .ok (rankCheck b bl 1) := by
  have hb4 : b.length = 4 := hWF.1
  have hrow1 : (b.getD 1 []).length = 4 := hWF.2 _ (getD_mem_of_lt (by omega) [])
  have hrow2 : (b.getD 2 []).length = 4 := hWF.2 _ (getD_mem_of_lt (by omega) [])
  have hrow1' : (b[1]?.getD ([] : List Int)).length = 4 := by
    rw [← List.getD_eq_getElem?_getD]
    exact hrow1
  unfold rankCheckE rankCheck
  norm_num
  rw [getE_eq (show (8:Nat) < bl.length by omega) 0, List.getD_eq_getElem?_getD, bindE_ok]
  by_cases h64 : bl[8]?.getD 0 ≤ 64
  · rw [if_pos h64, if_pos h64]
    rfl
  · rw [if_neg h64, if_neg h64]
    rw [getE2_eq (show 1 < b.length by omega) (show 3 < (b.getD 1 []).length by omega), bindE_ok]
    by_cases hne : bl[8]?.getD 0 = cellAt b 1 3
    · rw [if_pos hne, if_neg (fun hc => hc.1 hne)]
      rfl
    · rw [if_neg hne]
      rw [getE2_eq (show 2 < b.length by omega) (show 3 < (b.getD 2 []).length by omega),
        bindE_ok]
      rw [getE_eq (show (7:Nat) < bl.length by omega) 0, List.getD_eq_getElem?_getD, bindE_ok]
      by_cases hbp : cellAt b 2 3 = bl[7]?.getD 0
      · rw [if_pos hbp, if_pos (And.intro hne hbp)]
        rw [getE_eq (show 1 < b.length by omega) ([] : List Int), List.getD_eq_getElem?_getD,
          bindE_ok]
        rw [scanE_eq _ _ _ _ (by intro i hi; rw [hrow1']; simp at hi; omega), bindE_ok]
        cases scanT (b[1]?.getD []) [3, 2, 1, 0] (bl[8]?.getD 0) "right" <;> rfl
      · rw [if_neg hbp, if_neg (fun hc => hbp hc.2)]
        rfl

theorem rankCheckE_eq0 (b : Board) (bl : List Int) (hWF : WF4 b) (hbl : bl.length = 16) :
    rankCheckE b bl 0 = .ok (rankCheck b bl 0) := by
  have hb4 : b.length = 4 := hWF.1
  have hrow0 : (b.getD 0 []).length = 4 := hWF.2 _ (getD_mem_of_lt (by omega) [])
  have hrow1 : (b.getD 1 []).length = 4 := hWF.2 _ (getD_mem_of_lt (by omega) [])
  have hrow0' : (b[0]?.getD ([] : List Int)).length = 4 := by
    rw [← List.getD_eq_getElem?_getD]
    exact hrow0
  unfold rankCheckE rankCheck
  norm_num
  rw [getE_eq (show (12:Nat) < bl.length by omega) 0, List.getD_eq_getElem?_getD, bindE_ok]
  by_cases h64 : bl[12]?.getD 0 ≤ 64
  · rw [if_pos h64, if_pos h64]
    rfl
  · rw [if_neg h64, if_neg h64]
    rw [getE2_eq (show 0 < b.length by omega) (show 0 < (b.getD 0 []).length by omega), bindE_ok]
    by_cases hne : bl[12]?.getD 0 = cellAt b 0 0
    · rw [if_pos hne, if_neg (fun hc => hc.1 hne)]
      rfl
    · rw [if_neg hne]
      rw [getE2_eq (show 1 < b.length by omega) (show 0 < (b.getD 1 []).length by omega),
        bindE_ok]
      rw [getE_eq (show (11:Nat) < bl.length by omega) 0, List.getD_eq_getElem?_getD, bindE_ok]
      by_cases hbp : cellAt b 1 0 = bl[11]?.getD 0
      · rw [if_pos hbp, if_pos (And.intro hne hbp)]
        rw [getE_eq (show 0 < b.length by omega) ([] : List Int), List.getD_eq_getElem?_getD,
          bindE_ok]
        rw [scanE_eq _ _ _ _ (by intro i hi; rw [hrow0']; simp at hi; omega), bindE_ok]
        cases scanT (b[0]?.getD []) [0, 1, 2, 3] (bl[12]?.getD 0) "left" <;> rfl
      · rw [if_neg hbp, if_neg (fun hc => hbp hc.2)]
        rfl

theorem scanT_range (row : List Int) (target : Int) (mv : String) :
    ∀ idxs : List Nat, scanT row idxs target mv = none ∨ scanT row idxs target mv = some mv ∨
      scanT row idxs target mv = some "undo"
  | [] => Or.inl rfl
  | i :: is => by
    rw [show scanT row (i :: is) target mv = if row.getD i 0 = 1 then scanT row is target mv
      else if row.getD i 0 = target then some mv else some "undo" from rfl]
    split_ifs
    · exact scanT_range row target mv is
    · tauto
    · tauto

theorem matchShape (c1 c2 : Prop) [Decidable c1] [Decidable c2] (s1 s2 : Option String)
    (hs1 : s1 = none ∨ s1 = some "right" ∨ s1 = some "undo")
    (hs2 : s2 = none ∨ s2 = some "left" ∨ s2 = some "undo") (v : Int) :
    (if v ≤ 64 then some none
      else
        match (if c1 then s1 else none) with
        | some r => some (some r)
        | none =>
          match (if c2 then s2 else none) with
          | some r => some (some r)
          | none => none) = some (none : Option String) ∨
    (if v ≤ 64 then (some none : Option (Option String))
      else
        match (if c1 then s1 else none) with
        | some r => some (some r)
        | none =>
          match (if c2 then s2 else none) with
          | some r => some (some r)
          | none => none) = none ∨
    (if v ≤ 64 then (some none : Option (Option String))
      else
        match (if c1 then s1 else none) with
        | some r => some (some r)
        | none =>
          match (if c2 then s2 else none) with
          | some r => some (some r)
          | none => none) = some (some "right") ∨
    (if v ≤ 64 then (some none : Option (Option String))
      else
        match (if c1 then s1 else none) with
        | some r => some (some r)
        | none =>
          match (if c2 then s2 else none) with
          | some r => some (some r)
          | none => none) = some (some "left") ∨
    (if v ≤ 64 then (some none : Option (Option String))
      else
        match (if c1 then s1 else none) with
        | some r => some (some r)
        | none =>
          match (if c2 then s2 else none) with
          | some r => some (some r)
          | none => none) = some (some "undo") := by
  by_cases h0 : v ≤ 64
  · rw [if_pos h0]
    tauto
  · rw [if_neg h0]
    have hodmatch : (match (if c2 then s2 else none) with
        | some r => some (some r)
        | (none : Option String) => (none : Option (Option String))) = none ∨
        (match (if c2 then s2 else none) with
        | some r => some (some r)
        | none => none) = some (some "left") ∨
        (match (if c2 then s2 else none) with
        | some r => some (some r)
        | none => none) = some (some "undo") := by
      by_cases h2 : c2
      · rw [if_pos h2]
        rcases hs2 with h | h | h <;> rw [h] <;> tauto
      · rw [if_neg h2]
        tauto
    by_cases h1 : c1
    · rw [if_pos h1]
      rcases hs1 with h | h | h <;> rw [h]
      · rcases hodmatch with h' | h' | h' <;> rw [h'] <;> tauto
      · tauto
      · tauto
    · rw [if_neg h1]
      rcases hodmatch with h' | h' | h' <;> rw [h'] <;> tauto

theorem rankCheck_range (b : Board) (bl : List Int) (row : Nat) :
    rankCheck b bl row = some none ∨ rankCheck b bl row = none ∨
    rankCheck b bl row = some (some "right") ∨ rankCheck b bl row = some (some "left") ∨
    rankCheck b bl row = some (some "undo") :=
  matchShape
    ((3-row) % 2 = 0 ∧ bl.getD ((3-row)*4) 0 ≠ cellAt b row 3 ∧
      ((3-row)*4 = 0 ∨ cellAt b (row+1) 3 = bl.getD ((3-row)*4-1) 0))
    ((3-row) % 2 = 1 ∧ bl.getD ((3-row)*4) 0 ≠ cellAt b row 0 ∧
      cellAt b (row+1) 0 = bl.getD ((3-row)*4-1) 0)
    (scanT (b.getD row []) [3,2,1,0] (bl.getD ((3-row)*4) 0) "right")
    (scanT (b.getD row []) [0,1,2,3] (bl.getD ((3-row)*4) 0) "left")
    (scanT_range _ _ _ _) (scanT_range _ _ _ _) (bl.getD ((3-row)*4) 0)

/-- C10: on every 4×4 integer board `check_pivots` never indexes out of
range — the checked-access version returns exactly its result with no
`IndexError` (in particular `board[row+1]` is reached only for rows 0-2:
on the bottom row the `bl_idx == 0` disjunct short-circuits) — and the
result is always one of none, `left`, `right` or `undo`. -/
theorem c10_check_pivots_total (b : Board) (h : WF4 b) :
    check_pivotsE b = .ok (check_pivots b) ∧
    (check_pivots b = none ∨ check_pivots b = some "left" ∨
      check_pivots b = some "right" ∨ check_pivots b = some "undo") := by
  have hbl : (sortDesc (fun x => x) b.flatten).length = 16 := by
    rw [sortDesc_length]
    obtain ⟨r0, r1, r2, r3, hb, h0, h1, h2, h3⟩ := wf4_shape b h
    subst hb
    simp [h0, h1, h2, h3]
  constructor
  · simp only [check_pivotsE, check_pivots]
    rw [rankCheckE_eq3 b _ h hbl, bindE_ok]
    cases rankCheck b (sortDesc (fun x => x) b.flatten) 3 with
    | some r => rfl
    | none =>
      rw [rankCheckE_eq2 b _ h hbl, bindE_ok]
      cases rankCheck b (sortDesc (fun x => x) b.flatten) 2 with
      | some r => rfl
      | none =>
        rw [rankCheckE_eq1 b _ h hbl, bindE_ok]
        cases rankCheck b (sortDesc (fun x => x) b.flatten) 1 with
        | some r => rfl
        | none =>
          rw [rankCheckE_eq0 b _ h hbl, bindE_ok]
          cases rankCheck b (sortDesc (fun x => x) b.flatten) 0 <;> rfl
  · simp only [check_pivots]
    rcases rankCheck_range b (sortDesc (fun x => x) b.flatten) 3 with h3 | h3 | h3 | h3 | h3 <;>
      rw [h3]
    case inr.inl =>
      rcases rankCheck_range b (sortDesc (fun x => x) b.flatten) 2 with h2 | h2 | h2 | h2 | h2 <;>
        rw [h2]
      case inr.inl =>
        rcases rankCheck_range b (sortDesc (fun x => x) b.flatten) 1
          with h1 | h1 | h1 | h1 | h1 <;> rw [h1]
        case inr.inl =>
          rcases rankCheck_range b (sortDesc (fun x => x) b.flatten) 0
            with h0 | h0 | h0 | h0 | h0 <;> rw [h0]
          · exact Or.inl rfl
          · exact Or.inl rfl
          · exact Or.inr (Or.inr (Or.inl rfl))
          · exact Or.inr (Or.inl rfl)
          · exact Or.inr (Or.inr (Or.inr rfl))
        · exact Or.inl rfl
        · exact Or.inr (Or.inr (Or.inl rfl))
        · exact Or.inr (Or.inl rfl)
        · exact Or.inr (Or.inr (Or.inr rfl))
      · exact Or.inl rfl
      · exact Or.inr (Or.inr (Or.inl rfl))
      · exact Or.inr (Or.inl rfl)
      · exact Or.inr (Or.inr (Or.inr rfl))
    · exact Or.inl rfl
    · exact Or.inr (Or.inr (Or.inl rfl))
    · exact Or.inr (Or.inl rfl)
    · exact Or.inr (Or.inr (Or.inr rfl))

/-- Witness for C10 at a concrete 4×4 board. -/
theorem c10_witness :
    WF4 [[1,1,1,1],[1,1,1,1],[1,1,1,1],[128,1,1,32]] ∧
    check_pivotsE [[1,1,1,1],[1,1,1,1],[1,1,1,1],[128,1,1,32]] =
      .ok (check_pivots [[1,1,1,1],[1,1,1,1],[1,1,1,1],[128,1,1,32]]) :=
  ⟨by decide, (c10_check_pivots_total _ (by decide)).1⟩

/-- C3 (amended): `down` is the only transform that validates its input —
on every malformed board (empty, empty first row, or ragged rows) it
fails fast with a `ValueError` before any transform work; `left`, `right`
and the scorer perform no such validation. -/
theorem c3_down_validates (b : Board) (h : Malformed b) : (downE b).isOk = false := by
  unfold downE
  by_cases h0 : b = [] ∨ b.headD [] = []
  · rw [if_pos h0]
    rfl
  · rw [if_neg h0]
    rcases h with h | h | h
    · exact absurd (Or.inl h) h0
    · exact absurd (Or.inr h) h0
    · obtain ⟨r, hr, hne⟩ := h
      have hany : (b.any fun row => row.length ≠ (b.headD []).length) = true := by
        rw [List.any_eq_true]
        exact ⟨r, hr, by simpa using hne⟩
      rw [if_pos hany]
      rfl

/-- Witness for C3 (amended) at the empty board. -/
theorem c3_witness : Malformed ([] : Board) ∧ (downE ([] : Board)).isOk = false :=
  ⟨by decide, c3_down_validates [] (by decide)⟩

/-- C3 counterexample: `left` returns normally (no error at all) on a
ragged board, and the scorer returns a score on another ragged board —
neither fails fast with an invalid-input error as the claim demands for
every transform and the scorer. -/
theorem c3_counterexample :
    Malformed [[1,1],[2,2,2,2]] ∧
    leftE [[1,1],[2,2,2,2]] = .ok [[1,1],[4,2,2,1]] ∧
    Malformed [[2,2,2,2],[2,2],[2,2,2,2],[2,2,2,2]] ∧
    scoreE [[2,2,2,2],[2,2],[2,2,2,2],[2,2,2,2]] = .ok 98 :=
  ⟨by decide, by decide, by decide, by decide⟩

/-- C1: on the all-sentinel board every directional transform is a no-op,
`next_move` returns `"down"`, and the `while board == upcoming_board`
loop of `next_board` never exits, whatever fuel it is given — the call
hangs instead of returning the last tried move. -/
theorem c1_next_board_loops_forever :
    next_move [[1,1,1,1],[1,1,1,1],[1,1,1,1],[1,1,1,1]] = "down" ∧
    ∀ fuel : Nat,
      next_board_fuel [[1,1,1,1],[1,1,1,1],[1,1,1,1],[1,1,1,1]] fuel = none := by
  have hmv : next_move [[1,1,1,1],[1,1,1,1],[1,1,1,1],[1,1,1,1]] = "down" := by decide
  have hfixd : down [[1,1,1,1],[1,1,1,1],[1,1,1,1],[1,1,1,1]] =
      [[1,1,1,1],[1,1,1,1],[1,1,1,1],[1,1,1,1]] := by decide
  have hfixl : left [[1,1,1,1],[1,1,1,1],[1,1,1,1],[1,1,1,1]] =
      [[1,1,1,1],[1,1,1,1],[1,1,1,1],[1,1,1,1]] := by decide
  have hfixr : right [[1,1,1,1],[1,1,1,1],[1,1,1,1],[1,1,1,1]] =
      [[1,1,1,1],[1,1,1,1],[1,1,1,1],[1,1,1,1]] := by decide
  have hloop : ∀ fuel : Nat, ∀ m : String,
      noopLoop [[1,1,1,1],[1,1,1,1],[1,1,1,1],[1,1,1,1]] fuel
        (m, [[1,1,1,1],[1,1,1,1],[1,1,1,1],[1,1,1,1]]) = none := by
    intro fuel
    induction fuel with
    | zero => intro m; rfl
    | succ n ih =>
      intro m
      show (if _ = _ then _ else _) = none
      rw [if_pos rfl]
      unfold loopStep
      by_cases h1 : m = "down"
      · rw [if_pos h1, hfixl]
        exact ih "left"
      · rw [if_neg h1]
        by_cases h2 : m = "left"
        · rw [if_pos h2, hfixr]
          exact ih "right"
        · rw [if_neg h2, hfixd]
          exact ih "down"
  refine ⟨hmv, fun fuel => ?_⟩
  unfold next_board_fuel
  rw [hmv, if_neg (by decide), if_pos rfl, hfixd]
  show (match noopLoop [[1,1,1,1],[1,1,1,1],[1,1,1,1],[1,1,1,1]] fuel
      ("down", [[1,1,1,1],[1,1,1,1],[1,1,1,1],[1,1,1,1]]) with
    | some st => some (st.2, st.1)
    | none => none) = none
  rw [hloop fuel "down"]

/-! ### Scorer: domain of `log2` and agreement with the formula of §4.2 -/

theorem headD_eq_getD0 {α : Type} (l : List α) (d : α) : l.headD d = l.getD 0 d := by
  cases l <;> rfl

theorem monoRun_subset : ∀ (l : List Int) (last : Int), ∀ x ∈ monoRun l last, x ∈ l
  | [], _, x, hx => by simp [monoRun] at hx
  | y :: ys, last, x, hx => by
    rw [show monoRun (y :: ys) last = if y ≤ last then y :: monoRun ys y else [] from rfl] at hx
    split_ifs at hx
    · rcases List.mem_cons.mp hx with h1 | h1
      · simp [h1]
      · exact List.mem_cons.mpr (Or.inr (monoRun_subset ys y x h1))
    · simp at hx

theorem boardList_mem (b : Board) (h : WF4 b) (x : Int) (hx : x ∈ boardList b) :
    ∃ r ∈ b, x ∈ r := by
  obtain ⟨r0, r1, r2, r3, hb, h0, h1, h2, h3⟩ := wf4_shape b h
  subst hb
  have hbl : boardList [r0, r1, r2, r3] =
      ([r0.reverse, r1, r2.reverse, r3] : Board).flatten.reverse := rfl
  rw [hbl, List.mem_reverse] at hx
  rcases List.mem_flatten.mp hx with ⟨l, hl, hxl⟩
  simp only [List.mem_cons, List.not_mem_nil, or_false] at hl
  rcases hl with hl | hl | hl | hl
  · exact ⟨r0, by simp, by rw [hl] at hxl; exact List.mem_reverse.mp hxl⟩
  · exact ⟨r1, by simp, hl ▸ hxl⟩
  · exact ⟨r2, by simp, by rw [hl] at hxl; exact List.mem_reverse.mp hxl⟩
  · exact ⟨r3, by simp, hl ▸ hxl⟩

theorem addPowE_ok (base acc x : Int) (hx : 1 ≤ x) :
    addPowE base acc x = .ok (addPow base acc x) := by
  unfold addPowE log2E
  rw [if_neg (by omega : ¬ x ≤ 0)]
  rfl

theorem foldlM_addPowE (base : Int) : ∀ (l : List Int), (∀ x ∈ l, 1 ≤ x) → ∀ acc : Int,
    l.foldlM (addPowE base) acc = .ok (l.foldl (addPow base) acc)
  | [], _, acc => rfl
  | x :: xs, h, acc => by
    show (addPowE base acc x >>= fun a => xs.foldlM (addPowE base) a) = _
    rw [addPowE_ok base acc x (h x (by simp)), bindE_ok,
      foldlM_addPowE base xs (fun y hy => h y (by simp [hy])) _]
    rfl

theorem foldlM_rows : ∀ (rows : List (List Int)), (∀ r ∈ rows, ∀ c ∈ r, 1 ≤ c) → ∀ acc : Int,
    rows.foldlM (fun acc row => row.foldlM (addPowE 3) acc) acc =
    .ok (rows.foldl (fun acc row => row.foldl (addPow 3) acc) acc)
  | [], _, acc => rfl
  | r :: rs, h, acc => by
    show (r.foldlM (addPowE 3) acc >>= fun a =>
      rs.foldlM (fun acc row => row.foldlM (addPowE 3) acc) a) = _
    rw [foldlM_addPowE 3 r (h r (by simp)) acc, bindE_ok,
      foldlM_rows rs (fun r2 hr2 => h r2 (by simp [hr2])) _]
    rfl

theorem flpE_eq (b : Board) (h : WF4 b) : find_longest_pathE b = .ok (find_longest_path b) := by
  obtain ⟨r0, r1, r2, r3, hb, h0, h1, h2, h3⟩ := wf4_shape b h
  subst hb
  unfold find_longest_pathE find_longest_path boardList
  rw [getE_eq (show 0 < ([r0,r1,r2,r3] : Board).length by simp) ([] : List Int), bindE_ok]
  simp only [List.getD_cons_zero, List.set_cons_zero]
  rw [getE_eq (show 2 < ([r0.reverse,r1,r2,r3] : Board).length by simp) ([] : List Int), bindE_ok]
  simp only [List.getD_cons_zero, List.getD_cons_succ, List.set_cons_zero, List.set_cons_succ]
  have hlen : (([r0.reverse, r1, r2.reverse, r3] : Board).flatten.reverse).length = 16 := by
    simp [h0, h1, h2, h3]
  rw [getE_eq (show 0 < (([r0.reverse, r1, r2.reverse, r3] : Board).flatten.reverse).length
    by omega) 0, bindE_ok, headD_eq_getD0]
  rfl

theorem scoreE_eq (b : Board) (h : WF4 b) (hpos : ∀ r ∈ b, ∀ c ∈ r, 1 ≤ c) :
    scoreE b = .ok (score b) := by
  unfold scoreE score
  rw [flpE_eq b h, bindE_ok]
  have hseq : ∀ x ∈ find_longest_path b, 1 ≤ x := by
    intro x hx
    have hx2 : x ∈ boardList b := monoRun_subset _ _ x hx
    obtain ⟨r, hr, hxr⟩ := boardList_mem b h x hx2
    exact hpos r hr x hxr
  rw [foldlM_addPowE 4 _ hseq 0, bindE_ok, foldlM_rows b hpos _]

/-- C9: the scorer (and with it `find_longest_path`) completes without
error on every well-formed 4×4 board whose cells are all `≥ 1` — the
`math.log2` domain-error branch is unreachable under the sentinel
invariant — but raises the `math.log2` domain error as soon as a cell is
`≤ 0`, such as the `-1` that the perception boundary writes for an
unmatched cell. -/
theorem c9_score_domain :
    (∀ b : Board, WF4 b → (∀ r ∈ b, ∀ c ∈ r, 1 ≤ c) → scoreE b = .ok (score b)) ∧
    scoreE [[-1,2,2,2],[2,2,2,2],[2,2,2,2],[2,2,2,2]] =
      .error "ValueError: math domain error" :=
  ⟨scoreE_eq, by decide⟩

/-- Witness for C9 at a concrete board of cells `≥ 1`. -/
theorem c9_witness :
    WF4 [[2,2,2,1],[4,16,2,2],[8,64,32,8],[32,128,512,16384]] ∧
    scoreE [[2,2,2,1],[4,16,2,2],[8,64,32,8],[32,128,512,16384]] =
      .ok (score [[2,2,2,1],[4,16,2,2],[8,64,32,8],[32,128,512,16384]]) :=
  ⟨by decide, c9_score_domain.1 _ (by decide) (by decide)⟩

theorem nonIncRun_eq_monoRun : ∀ l : List Int, Spec2048.nonIncRun l = monoRun l (l.headD 0)
  | [] => rfl
  | [x] => by
    show [x] = if x ≤ x then x :: monoRun [] x else []
    rw [if_pos le_rfl]
    rfl
  | x :: y :: rest => by
    rw [show Spec2048.nonIncRun (x :: y :: rest) =
      x :: (if y ≤ x then Spec2048.nonIncRun (y :: rest) else []) from rfl]
    show _ = monoRun (x :: y :: rest) x
    rw [show monoRun (x :: y :: rest) x =
      if x ≤ x then x :: monoRun (y :: rest) x else [] from rfl, if_pos le_rfl]
    congr 1
    by_cases hyx : y ≤ x
    · rw [if_pos hyx, nonIncRun_eq_monoRun (y :: rest)]
      show monoRun (y :: rest) y = monoRun (y :: rest) x
      rw [show monoRun (y :: rest) y = if y ≤ y then y :: monoRun rest y else [] from rfl,
        show monoRun (y :: rest) x = if y ≤ x then y :: monoRun rest y else [] from rfl,
        if_pos le_rfl, if_pos hyx]
    · rw [if_neg hyx]
      rw [show monoRun (y :: rest) x = if y ≤ x then y :: monoRun rest y else [] from rfl,
        if_neg hyx]

theorem traversal_eq_boardList (b : Board) (h : WF4 b) :
    boardList b = Spec2048.traversal b := by
  obtain ⟨r0, r1, r2, r3, hb, h0, h1, h2, h3⟩ := wf4_shape b h
  subst hb
  show ([r0.reverse, r1, r2.reverse, r3] : Board).flatten.reverse = _
  unfold Spec2048.traversal
  simp [List.reverse_append]

theorem flp_eq_snake (b : Board) (h : WF4 b) : find_longest_path b = Spec2048.snake b := by
  unfold find_longest_path Spec2048.snake
  rw [nonIncRun_eq_monoRun, traversal_eq_boardList b h]

theorem foldl_addPow_sum (base : Int) : ∀ (l : List Int) (acc : Int),
    l.foldl (addPow base) acc = acc + (l.map (fun v => base ^ log2Int v)).sum
  | [], acc => by simp
  | x :: xs, acc => by
    show xs.foldl (addPow base) (addPow base acc x) = _
    rw [foldl_addPow_sum base xs (addPow base acc x)]
    simp only [addPow, List.map_cons, List.sum_cons]
    ring

theorem foldl_rows_sum : ∀ (rows : List (List Int)) (acc : Int),
    rows.foldl (fun acc row => row.foldl (addPow 3) acc) acc =
    acc + (rows.map (fun row => (row.map (fun v => (3:Int) ^ log2Int v)).sum)).sum
  | [], acc => by simp
  | r :: rs, acc => by
    show rs.foldl _ (r.foldl (addPow 3) acc) = _
    rw [foldl_rows_sum rs (r.foldl (addPow 3) acc), foldl_addPow_sum 3 r acc]
    simp only [List.map_cons, List.sum_cons]
    ring

theorem score_eq_spec (b : Board) (h : WF4 b) : score b = Spec2048.specScore b := by
  unfold score Spec2048.specScore
  rw [flp_eq_snake b h, foldl_addPow_sum, foldl_rows_sum, zero_add]
  congr 1
  rw [List.map_flatten, List.sum_flatten, List.map_map]
  rfl

/-- C8: on well-formed 4×4 boards of sentinel/power-of-two cells, the
computed monotonic prefix is the longest non-increasing initial run of
the boustrophedon traversal anchored at the bottom-right build corner,
and the score is `Σ 4^log2(value)` over that prefix plus `Σ 3^log2(value)`
over all 16 cells; on the fixture board the prefix is
`[16384, 512, 128, 32, 8]` and the score is 273521286. -/
theorem c8_scorer :
    (∀ b : Board, WF4 b → AllValid b →
      find_longest_path b = Spec2048.snake b ∧ score b = Spec2048.specScore b) ∧
    find_longest_path [[2,2,2,1],[4,16,2,2],[8,64,32,8],[32,128,512,16384]] =
      [16384, 512, 128, 32, 8] ∧
    score [[2,2,2,1],[4,16,2,2],[8,64,32,8],[32,128,512,16384]] = 273521286 :=
  ⟨fun b h _ => ⟨flp_eq_snake b h, score_eq_spec b h⟩, by decide, by decide⟩

/-- Witness for C8 at the fixture board. -/
theorem c8_witness :
    WF4 [[2,2,2,1],[4,16,2,2],[8,64,32,8],[32,128,512,16384]] ∧
    AllValid [[2,2,2,1],[4,16,2,2],[8,64,32,8],[32,128,512,16384]] ∧
    score [[2,2,2,1],[4,16,2,2],[8,64,32,8],[32,128,512,16384]] =
      Spec2048.specScore [[2,2,2,1],[4,16,2,2],[8,64,32,8],[32,128,512,16384]] :=
  ⟨by decide, allValid_of_b (by decide),
    (c8_scorer.1 _ (by decide) (allValid_of_b (by decide))).2⟩

/-! ### Lookahead search (C6) -/

theorem firstMaxD_isSome {α : Type} (key : α → Int) (y : α) (ys : List α) :
    ∃ p, firstMaxD key (y :: ys) = some p := by
  rw [← sortDesc_head]
  cases hs : sortDesc key (y :: ys) with
  | nil =>
    have hl := sortDesc_length key (y :: ys)
    rw [hs] at hl
    simp at hl
  | cons q qs => exact ⟨q, rfl⟩

set_option maxRecDepth 10000 in
set_option maxHeartbeats 2000000 in
/-- C6: when the pivot check returns none, `next_move` returns the label
of the first scored leaf attaining the maximum score: the scored-leaf
list splits as `l1 ++ p :: l2` with everything in `l1` scoring strictly
below `p` and everything in `l2` scoring at most `p`, `next_move`
returns `p`'s first-ply label, and the 27 leaves are generated with all
`down`-labelled leaves before all `left`-labelled before all
`right`-labelled — so ties favour `down`, then `left`, then `right`. -/
theorem c6_lookahead_first_max (b : Board) (_hWF : WF4 b) (_hv : AllValid b)
    (hpivot : check_pivots b = none) :
    ∃ (p : Int × String) (l1 l2 : List (Int × String)),
      scoredList b = l1 ++ p :: l2 ∧ (∀ q ∈ l1, q.1 < p.1) ∧ (∀ q ∈ l2, q.1 ≤ p.1) ∧
      next_move b = p.2 ∧
      (leaves b).map Prod.snd =
        List.replicate 9 "down" ++ List.replicate 9 "left" ++ List.replicate 9 "right" := by
  have h1 : expandOnce [(b, "")] = [(down b, "down"), (left b, "left"), (right b, "right")] :=
    rfl
  have h2 : ∀ b1 b2 b3 : Board, expandOnce [(b1, "down"), (b2, "left"), (b3, "right")] =
      [(down b1, "down"), (left b1, "down"), (right b1, "down"),
       (down b2, "left"), (left b2, "left"), (right b2, "left"),
       (down b3, "right"), (left b3, "right"), (right b3, "right")] := fun _ _ _ => rfl
  have h3 : ∀ c1 c2 c3 c4 c5 c6 c7 c8 c9 : Board,
      expandOnce [(c1, "down"), (c2, "down"), (c3, "down"), (c4, "left"), (c5, "left"),
        (c6, "left"), (c7, "right"), (c8, "right"), (c9, "right")] =
      [(down c1, "down"), (left c1, "down"), (right c1, "down"),
       (down c2, "down"), (left c2, "down"), (right c2, "down"),
       (down c3, "down"), (left c3, "down"), (right c3, "down"),
       (down c4, "left"), (left c4, "left"), (right c4, "left"),
       (down c5, "left"), (left c5, "left"), (right c5, "left"),
       (down c6, "left"), (left c6, "left"), (right c6, "left"),
       (down c7, "right"), (left c7, "right"), (right c7, "right"),
       (down c8, "right"), (left c8, "right"), (right c8, "right"),
       (down c9, "right"), (left c9, "right"), (right c9, "right")] :=
    fun _ _ _ _ _ _ _ _ _ => rfl
  have hleaves : leaves b =
      expandOnce (expandOnce [(down b, "down"), (left b, "left"), (right b, "right")]) := by
    show expandOnce (expandOnce (expandOnce [(b, "")])) = _
    rw [h1]
  have hlab : (leaves b).map Prod.snd =
      List.replicate 9 "down" ++ List.replicate 9 "left" ++ List.replicate 9 "right" := by
    rw [hleaves, h2, h3]
    rfl
  obtain ⟨x, xs, hs⟩ : ∃ x xs, scoredList b = x :: xs := by
    unfold scoredList
    rw [hleaves, h2, h3]
    exact ⟨_, _, rfl⟩
  obtain ⟨p, hp⟩ : ∃ p, firstMaxD (fun q : Int × String => q.1) (scoredList b) = some p := by
    rw [hs]
    exact firstMaxD_isSome _ x xs
  obtain ⟨l1, l2, he, hlt, hle⟩ := firstMaxD_spec _ _ p hp
  refine ⟨p, l1, l2, he, hlt, hle, ?_, hlab⟩
  have hhead : (sortDesc (fun q : Int × String => q.1) (scoredList b)).head? = some p := by
    rw [sortDesc_head]
    exact hp
  unfold next_move
  rw [hpivot]
  cases hsort : sortDesc (fun q : Int × String => q.1) (scoredList b) with
  | nil =>
    rw [hsort] at hhead
    simp at hhead
  | cons q qs =>
    rw [hsort] at hhead
    simp at hhead
    show q.2 = p.2
    rw [hhead]

set_option maxRecDepth 10000 in
set_option maxHeartbeats 2000000 in
/-- Witness for C6 at the all-sentinel board (pivot check returns none
there). -/
theorem c6_witness :
    WF4 [[1,1,1,1],[1,1,1,1],[1,1,1,1],[1,1,1,1]] ∧
    check_pivots [[1,1,1,1],[1,1,1,1],[1,1,1,1],[1,1,1,1]] = none ∧
    ∃ (p : Int × String) (l1 l2 : List (Int × String)),
      scoredList [[1,1,1,1],[1,1,1,1],[1,1,1,1],[1,1,1,1]] = l1 ++ p :: l2 ∧
      (∀ q ∈ l1, q.1 < p.1) ∧ (∀ q ∈ l2, q.1 ≤ p.1) ∧
      next_move [[1,1,1,1],[1,1,1,1],[1,1,1,1],[1,1,1,1]] = p.2 ∧
      (leaves [[1,1,1,1],[1,1,1,1],[1,1,1,1],[1,1,1,1]]).map Prod.snd =
        List.replicate 9 "down" ++ List.replicate 9 "left" ++ List.replicate 9 "right" :=
  ⟨by decide, by decide,
    c6_lookahead_first_max _ (by decide)
      (allValid_of_b (by decide)) (by decide)⟩

end Game2048
